import Mathlib

/-!
# llmqa: the document ranker, the summariser, the answerer and the chunker

A shallow embedding of `src/server/services/vectorStore.js` (`calculateSimilarity`, `search`,
`splitIntoChunks`), of `src/server/services/llmService.js` (`generateSummary`,
`answerQuestion`), of `src/server/services/documentProcessor.js` (`processDocument` and its
copy of `splitIntoChunks`) and of the test on the extracted text in the upload handler of
`src/server/index.js`.

Modelling notes.

* A JavaScript string is a list of Unicode code points (`JSString`); `jsLength` counts UTF-16
  code units, as `String.prototype.length` does.
* `String.prototype.toLowerCase` is the host's Unicode case mapping.  Every definition takes it
  as the parameter `toLowerCase`; `asciiLower` is the mapping restricted to Basic Latin and is
  used for concrete evaluations on Basic Latin strings, where both agree.
* The quotient `intersection.length / union.length` is kept as an exact rational number.  The
  divisor is never zero (`union_ne_nil`), so the quotient is never NaN.
* `Array.prototype.sort` is the stable sort of ECMAScript 2019, given here as an insertion sort
  driven by the sign of the comparator.  For a consistent comparator the result of a stable sort
  is unique, so this is the array every conforming engine returns.
* The frequency table of `generateSummary` is a plain object: a lookup that finds no own
  property falls through to `Object.prototype`.  Values are therefore numbers, strings or
  built-in objects, and `+` is addition or concatenation accordingly.
* `splitIntoChunks` works with indices, so its text is a list of UTF-16 code units (`Units`).
  Its integers are exact (they stay far below `2 ^ 53`); the one place where a double is not an
  integer, `start + maxChunkSize * 0.7`, is computed with `roundDouble`, the rounding of an
  exact result to the nearest double.  The `while` loop takes fuel.
* `processDocument` is a function of what the file system and the extraction libraries give
  (`FileReads`); an error is given by its message.
-/

namespace LLMQA

/-! ## Strings -/

/-- A JavaScript string, as its list of code points. -/
abbrev JSString := List Char

/-- `s.length`: the number of UTF-16 code units. -/
def jsLength (s : JSString) : Nat :=
  (s.map fun c => if c.toNat < 65536 then 1 else 2).sum

/-- The class `\s` of a regular expression, which is also what `trim` strips:
WhiteSpace and LineTerminator code points. -/
def isWhiteSpace (c : Char) : Bool :=
  let n := c.toNat
  n == 9 || n == 10 || n == 11 || n == 12 || n == 13 || n == 32 || n == 160 ||
  n == 0x1680 || (0x2000 ≤ n && n ≤ 0x200A) || n == 0x2028 || n == 0x2029 ||
  n == 0x202F || n == 0x205F || n == 0x3000 || n == 0xFEFF

/-- The class `[.!?]`. -/
def isSentenceEnd (c : Char) : Bool :=
  c == '.' || c == '!' || c == '?'

/-- `s.split(/C+/)` for a character class `C` given by `sep`: the pieces between the maximal
runs of separator characters.  A leading or trailing run leaves an empty piece, and the empty
string gives one empty piece. -/
def splitRuns (sep : Char → Bool) : JSString → List JSString
  | [] => [[]]
  | c :: cs =>
    if sep c then
      match cs with
      | [] => [] :: splitRuns sep cs
      | d :: _ => if sep d then splitRuns sep cs else [] :: splitRuns sep cs
    else
      match splitRuns sep cs with
      | [] => [[c]]
      | w :: ws => (c :: w) :: ws

/-- `s.trim()`. -/
def trim (s : JSString) : JSString :=
  ((s.dropWhile isWhiteSpace).reverse.dropWhile isWhiteSpace).reverse

/-- `parts.join(sep)`. -/
def join (sep : JSString) : List JSString → JSString
  | [] => []
  | [s] => s
  | s :: t :: rest => s ++ sep ++ join sep (t :: rest)

/-- Lower-casing of one Basic Latin code point. -/
def asciiLowerChar (c : Char) : Char :=
  if 65 ≤ c.toNat ∧ c.toNat ≤ 90 then Char.ofNat (c.toNat + 32) else c

/-- The case mapping restricted to Basic Latin: `A`..`Z` go to `a`..`z`, every other code point
is kept.  On strings of Basic Latin code points this is `toLowerCase`. -/
def asciiLower (s : JSString) : JSString :=
  s.map asciiLowerChar

/-! ## Arrays -/

/-- `[...new Set(xs)]`: the distinct elements in order of first occurrence. -/
def newSet {α : Type} [DecidableEq α] : List α → List α
  | [] => []
  | x :: xs => x :: (newSet xs).filter (fun y => decide (y ≠ x))

/-- One insertion step of the stable sort: `x`, which precedes every element of the list in the
input, goes behind exactly the leading elements it must come after. -/
def insertSorted {α : Type} (after : α → α → Bool) (x : α) : List α → List α
  | [] => [x]
  | y :: ys => if after x y then y :: insertSorted after x ys else x :: y :: ys

/-- `xs.sort(compareFn)`, where `after a b` says `compareFn(a, b) > 0`; a comparator value of
NaN counts as `0`. -/
def sort {α : Type} (after : α → α → Bool) : List α → List α
  | [] => []
  | x :: xs => insertSorted after x (sort after xs)

/-! ## vectorStore.js -/

/-- The array `words1` (and `words2`) of `calculateSimilarity`. -/
def words (toLowerCase : JSString → JSString) (text : JSString) : List JSString :=
  splitRuns isWhiteSpace (toLowerCase text)

/-- The array `intersection` of `calculateSimilarity`. -/
def intersection (toLowerCase : JSString → JSString) (text1 text2 : JSString) : List JSString :=
  let words1 := words toLowerCase text1
  let words2 := words toLowerCase text2
  words1.filter (fun word => words2.contains word)

/-- The array `union` of `calculateSimilarity`. -/
def union (toLowerCase : JSString → JSString) (text1 text2 : JSString) : List JSString :=
  let words1 := words toLowerCase text1
  let words2 := words toLowerCase text2
  newSet (words1 ++ words2)

/-- `calculateSimilarity(text1, text2)`. -/
def calculateSimilarity (toLowerCase : JSString → JSString) (text1 text2 : JSString) : ℚ :=
  ((intersection toLowerCase text1 text2).length : ℚ) / ((union toLowerCase text1 text2).length : ℚ)

/-- A row of the `documents` table. -/
structure Doc where
  id : JSString
  filename : JSString
  content : JSString
  summary : JSString
  uploaded_at : JSString
  deriving DecidableEq

/-- An element of the array returned by `search`. -/
structure SearchResult where
  id : JSString
  filename : JSString
  content : JSString
  summary : JSString
  uploadedAt : JSString
  similarity : ℚ
  deriving DecidableEq

/-- What `await this.supabase.from(...).select(...).order(...)` gives: the promise rejects, or
it resolves to `{ data, error }`, each of which may be null. -/
inductive FetchOutcome (ε : Type) where
  | rejected (e : ε)
  | resolved (data : Option (List Doc)) (error : Option ε)

/-- The callback of `documents.map` in `search`. -/
def toResult (toLowerCase : JSString → JSString) (query : JSString) (doc : Doc) : SearchResult :=
  { id := doc.id
    filename := doc.filename
    content := doc.content
    summary := doc.summary
    uploadedAt := doc.uploaded_at
    similarity := calculateSimilarity toLowerCase query doc.content }

/-- The comparator `(a, b) => b.similarity - a.similarity` is positive. -/
def bySimilarity (a b : SearchResult) : Bool :=
  decide (b.similarity - a.similarity > 0)

/-- `search(query, limit)`, as a function of the outcome of the database fetch.  A thrown value
passes through the `catch` block, which logs and rethrows it. -/
def search {ε : Type} (toLowerCase : JSString → JSString) (fetch : FetchOutcome ε)
    (query : JSString) (limit : Nat) : Except ε (List SearchResult) :=
  match fetch with
  | .rejected e => .error e
  | .resolved documents docError =>
    match docError with
    | some e => .error e
    | none =>
      match documents with
      | none => .ok []
      | some [] => .ok []
      | some documents =>
        let results := documents.map (toResult toLowerCase query)
        .ok ((sort bySimilarity results).take limit)

/-- The error that the database fetch reports, if any: the value a rejected promise carries, or
a non-null `error` field. -/
def reportedError {ε : Type} : FetchOutcome ε → Option ε
  | .rejected e => some e
  | .resolved _ docError => docError

/-- A stored document with the given file name and content. -/
def mkDoc (filename content : JSString) : Doc :=
  { id := filename, filename := filename, content := content, summary := [], uploaded_at := [] }

/-! ### Jaccard similarity, as the specification words it -/

/-- The token set of a text: the set of the pieces of the lower-cased text between runs of
whitespace. -/
def tokenSet (toLowerCase : JSString → JSString) (text : JSString) : Finset JSString :=
  (words toLowerCase text).toFinset

/-- Jaccard similarity `|A ∩ B| / |A ∪ B|` of two token sets. -/
def jaccard (A B : Finset JSString) : ℚ :=
  ((A ∩ B).card : ℚ) / ((A ∪ B).card : ℚ)

/-! ## llmService.js -/

/-- The values that the frequency table and the scores of `generateSummary` hold: a natural
number, a string, or a built-in object, given by the string it converts to. -/
inductive JSVal where
  | num (n : Nat)
  | str (s : JSString)
  | obj (text : JSString)
  deriving DecidableEq

/-- ToString of a value. -/
def JSVal.toStr : JSVal → JSString
  | .num n => Nat.toDigits 10 n
  | .str s => s
  | .obj text => text

/-- The value of `v || 0`, where `none` stands for `undefined`: a falsy `v` (undefined, `0`,
the empty string) gives `0`. -/
def orZero : Option JSVal → JSVal
  | none => .num 0
  | some (.num n) => .num n
  | some (.str s) => if s = [] then .num 0 else .str s
  | some (.obj text) => .obj text

/-- The operator `+`: the sum of two numbers, and otherwise the concatenation of the two
operands converted to strings. -/
def add : JSVal → JSVal → JSVal
  | .num a, .num b => .num (a + b)
  | a, b => .str (a.toStr ++ b.toStr)

/-- The built-in function called `name`, which converts to its source text as Node prints
it. -/
def nativeFunction (name : JSString) : JSVal :=
  .obj ("function ".toList ++ name ++ "() \x7b [native code] \x7d".toList)

/-- The keys of `Object.prototype` whose values are functions named after the key. -/
def prototypeMethods : List JSString :=
  ["__defineGetter__".toList, "__defineSetter__".toList, "hasOwnProperty".toList,
   "__lookupGetter__".toList, "__lookupSetter__".toList, "isPrototypeOf".toList,
   "propertyIsEnumerable".toList, "toString".toList, "valueOf".toList,
   "toLocaleString".toList]

/-- What an object literal `{}` inherits under `key` from `Object.prototype`: `constructor` is
the function `Object`, `__proto__` reads as `Object.prototype` itself. -/
def inherited (key : JSString) : Option JSVal :=
  if key = "constructor".toList then some (nativeFunction "Object".toList)
  else if key = "__proto__".toList then some (.obj "[object Object]".toList)
  else if key ∈ prototypeMethods then some (nativeFunction key)
  else none

/-- The own properties of the plain object `wordFreq`. -/
abbrev Table := List (JSString × JSVal)

/-- The own property `key` of a table, if there is one. -/
def Table.own : Table → JSString → Option JSVal
  | [], _ => none
  | (k, v) :: rest, key => if k = key then some v else Table.own rest key

/-- The expression `wordFreq[key]`: the own property, else the inherited one, else undefined. -/
def Table.get (t : Table) (key : JSString) : Option JSVal :=
  match t.own key with
  | some v => some v
  | none => inherited key

/-- Replace or add the own property `key`. -/
def Table.put : Table → JSString → JSVal → Table
  | [], key, v => [(key, v)]
  | (k, w) :: rest, key, v =>
    if k = key then (k, v) :: rest else (k, w) :: Table.put rest key v

/-- The assignment `wordFreq[key] = v` of a number or a string: the setter of `__proto__`
ignores such a value, any other key becomes or stays an own property. -/
def Table.set (t : Table) (key : JSString) (v : JSVal) : Table :=
  if key = "__proto__".toList then t else t.put key v

/-- The array `sentences` of `generateSummary`. -/
def sentences (text : JSString) : List JSString :=
  (splitRuns isSentenceEnd text).filter (fun s => decide (jsLength (trim s) > 0))

/-- The array `words` of `generateSummary`. -/
def longWords (toLowerCase : JSString → JSString) (text : JSString) : List JSString :=
  (splitRuns isWhiteSpace (toLowerCase text)).filter (fun w => decide (jsLength w > 3))

/-- The object `wordFreq` after the `forEach` loop. -/
def wordFreq (toLowerCase : JSString → JSString) (text : JSString) : Table :=
  (longWords toLowerCase text).foldl
    (fun t word => t.set word (add (orZero (t.get word)) (.num 1))) []

/-- An element `{ sentence, score }` of `sentenceScores`. -/
structure Scored where
  sentence : JSString
  score : JSVal
  deriving DecidableEq

/-- The array `sentenceScores` of `generateSummary`. -/
def sentenceScores (toLowerCase : JSString → JSString) (text : JSString) : List Scored :=
  (sentences text).map fun sentence =>
    let sentenceWords := splitRuns isWhiteSpace (toLowerCase sentence)
    let score := sentenceWords.foldl
      (fun sum word => add sum (orZero ((wordFreq toLowerCase text).get word))) (.num 0)
    { sentence := trim sentence, score := score }

/-- ToNumber of a score, `none` standing for NaN.  A score that is a string holds the text of a
built-in object (`str_score_has_bracket`), which is no numeric literal. -/
def toNumber : JSVal → Option Int
  | .num n => some n
  | .str _ => none
  | .obj _ => none

/-- The comparator `(a, b) => b.score - a.score` is positive; a NaN difference is not. -/
def byScore (a b : Scored) : Bool :=
  match toNumber b.score, toNumber a.score with
  | some y, some x => decide (y - x > 0)
  | _, _ => false

/-- `generateSummary(text)`.  When the scores are all numbers, or all strings, the comparator is
consistent and `sort` gives the array that every engine returns.  When some scores are strings
and others are numbers the comparator is not consistent, ECMAScript leaves the order to the
engine, and `sort` gives one admissible order, which need not be the order of a given engine;
the statements below are made only at inputs of the first kind. -/
def generateSummary (toLowerCase : JSString → JSString) (text : JSString) : JSString :=
  let topSentences :=
    ((sort byScore (sentenceScores toLowerCase text)).take (min 3 (sentences text).length)).map
      (fun item => item.sentence)
  join ". ".toList topSentences ++ ".".toList

/-! ### The summary, as the specification words it -/

/-- The score of a sentence in the words of the specification: the sum, over the tokens of the
lower-cased sentence, of the number of occurrences of the token among the tokens of the
lower-cased text that are longer than 3 characters. -/
def specScore (toLowerCase : JSString → JSString) (text sentence : JSString) : Nat :=
  ((splitRuns isWhiteSpace (toLowerCase sentence)).map fun word =>
    (longWords toLowerCase text).count word).sum

/-- The summary in the words of the specification: the `min 3 n` sentences of highest
`specScore`, ties in text order, trimmed, joined by `. ` and closed by `.`. -/
def specSummary (toLowerCase : JSString → JSString) (text : JSString) : JSString :=
  let ranked := sort
    (fun a b => decide (specScore toLowerCase text a < specScore toLowerCase text b))
    (sentences text)
  join ". ".toList ((ranked.take (min 3 (sentences text).length)).map trim) ++ ".".toList

/-! ### answerQuestion -/

/-- The reply of `answerQuestion` when no sentence is relevant. -/
def notFoundMessage : JSString :=
  "I couldn't find specific information in the documents to answer your question.".toList

/-- `s.includes(word)`: `word` occurs in `s` as a contiguous piece. -/
def includes (s word : JSString) : Bool :=
  decide (List.IsInfix word s)

/-- The array `questionWords` of `answerQuestion`. -/
def questionWords (toLowerCase : JSString → JSString) (question : JSString) : List JSString :=
  splitRuns isWhiteSpace (toLowerCase question)

/-- The callback of `contextSentences.filter` in `answerQuestion`. -/
def isRelevant (toLowerCase : JSString → JSString) (question sentence : JSString) : Bool :=
  let sentenceLower := toLowerCase sentence
  (questionWords toLowerCase question).any fun word =>
    decide (jsLength word > 3) && includes sentenceLower word

/-- The array `relevantSentences` of `answerQuestion`; `contextSentences` is `sentences context`,
the same expression as in `generateSummary`. -/
def relevantSentences (toLowerCase : JSString → JSString) (question context : JSString) :
    List JSString :=
  (sentences context).filter (isRelevant toLowerCase question)

/-- `answerQuestion(question, context)`. -/
def answerQuestion (toLowerCase : JSString → JSString) (question context : JSString) :
    JSString :=
  if (relevantSentences toLowerCase question context).length = 0 then notFoundMessage
  else join " ".toList ((relevantSentences toLowerCase question context).take 2)

/-! ## splitIntoChunks (vectorStore.js and, word for word, documentProcessor.js) -/

/-! ### Double arithmetic -/

/-- The double nearest to `0.7`, which is what the literal `0.7` denotes. -/
def seventenths : ℚ := 6305039478318694 / 9007199254740992

/-- Rounding of a rational to the nearest integer, a tie going to the even one. -/
def roundHalfEven (q : ℚ) : ℤ :=
  if q - ⌊q⌋ < 1 / 2 then ⌊q⌋
  else if 1 / 2 < q - ⌊q⌋ then ⌊q⌋ + 1
  else if ⌊q⌋ % 2 = 0 then ⌊q⌋ else ⌊q⌋ + 1

/-- The double nearest to a rational `x`, a tie going to the even significand: the result of a
double operation whose exact result is `x` (53-bit significands; the exponent range is not
modelled, no value here comes near its ends). -/
def roundDouble (x : ℚ) : ℚ :=
  if x = 0 then 0
  else (roundHalfEven (x / (2 : ℚ) ^ (Int.log 2 |x| - 52)) : ℚ) * (2 : ℚ) ^ (Int.log 2 |x| - 52)

/-- The test `breakPoint > start + maxChunkSize * 0.7`, in double arithmetic. -/
def pastThreshold (start maxChunkSize breakPoint : Int) : Bool :=
  decide ((breakPoint : ℚ) > roundDouble ((start : ℚ) + roundDouble ((maxChunkSize : ℚ) * seventenths)))

/-! ### The chunker -/

/-- A string as the list of its UTF-16 code units: the indices and lengths that
`splitIntoChunks` works with count code units. -/
abbrev Units := List Nat

/-- The code units of a string of code points. -/
def utf16 (s : JSString) : Units :=
  s.flatMap fun c =>
    if c.toNat < 65536 then [c.toNat]
    else [0xD800 + (c.toNat - 0x10000) / 1024, 0xDC00 + (c.toNat - 0x10000) % 1024]

/-- The class `\s` on code units. -/
def isWhiteSpaceUnit (n : Nat) : Bool :=
  n == 9 || n == 10 || n == 11 || n == 12 || n == 13 || n == 32 || n == 160 ||
  n == 0x1680 || (0x2000 ≤ n && n ≤ 0x200A) || n == 0x2028 || n == 0x2029 ||
  n == 0x202F || n == 0x205F || n == 0x3000 || n == 0xFEFF

/-- `s.trim()` on code units. -/
def trimUnits (s : Units) : Units :=
  ((s.dropWhile isWhiteSpaceUnit).reverse.dropWhile isWhiteSpaceUnit).reverse

/-- `text.substring(start, stop)`: both indices are clamped to the string and exchanged when
out of order. -/
def substring (text : Units) (start stop : Int) : Units :=
  let len : Int := text.length
  let finalStart := min (max start 0) len
  let finalEnd := min (max stop 0) len
  let lo := min finalStart finalEnd
  let hi := max finalStart finalEnd
  (text.drop lo.toNat).take (hi - lo).toNat

/-- The greatest index `k ≤ from` with `text[k] = unit`, or `-1`. -/
def lastIndexFrom (text : Units) (unit : Nat) : Nat → Int
  | 0 => if text.get? 0 = some unit then 0 else -1
  | k + 1 => if text.get? (k + 1) = some unit then ((k + 1 : Nat) : Int)
      else lastIndexFrom text unit k

/-- `text.lastIndexOf(c, position)` for a one-unit string `c`: the position is clamped to
`0 .. text.length - 1` and the search runs backwards from there. -/
def lastIndexOf (text : Units) (unit : Nat) (position : Int) : Int :=
  lastIndexFrom text unit (min (max position 0) ((text.length : Int) - 1)).toNat

/-- The variable `breakPoint` for a window that would end at `stop`: the later of the last
full stop and the last newline at or before index `stop`. -/
def breakPoint (text : Units) (stop : Int) : Int :=
  let lastPeriod := lastIndexOf text 46 stop
  let lastNewline := lastIndexOf text 10 stop
  max lastPeriod lastNewline

/-- The value of `end` when the chunk is cut, for the window that starts at `start`. -/
def windowEnd (text : Units) (maxChunkSize start : Int) : Int :=
  let stop := start + maxChunkSize
  if stop < text.length then
    if pastThreshold start maxChunkSize (breakPoint text stop) then breakPoint text stop + 1
    else stop
  else stop

/-- The `while` loop of `splitIntoChunks`, run for at most `fuel` tests of its condition, from
the given `start` and `chunks`; `none` when the fuel runs out before the loop ends. -/
def chunkLoop (text : Units) (maxChunkSize overlap : Int) :
    Nat → Int → List Units → Option (List Units)
  | 0, _, _ => none
  | fuel + 1, start, chunks =>
    if start < text.length then
      chunkLoop text maxChunkSize overlap fuel (windowEnd text maxChunkSize start - overlap)
        (chunks ++ [trimUnits (substring text start (windowEnd text maxChunkSize start))])
    else some chunks

/-- `splitIntoChunks(text, maxChunkSize, overlap)`, with fuel for the loop. -/
def splitIntoChunks (fuel : Nat) (text : Units) (maxChunkSize overlap : Int) :
    Option (List Units) :=
  if text = [] ∨ (text.length : Int) ≤ maxChunkSize then some [text]
  else (chunkLoop text maxChunkSize overlap fuel 0 []).map
    (List.filter fun chunk => decide (chunk.length > 0))

/-- The windows `(start, end)` of the first `n` passes of the loop that starts at `start`. -/
def windows (text : Units) (maxChunkSize overlap : Int) : Nat → Int → List (Int × Int)
  | 0, _ => []
  | n + 1, start =>
    if start < text.length then
      (start, windowEnd text maxChunkSize start) ::
        windows text maxChunkSize overlap n (windowEnd text maxChunkSize start - overlap)
    else []

/-- The number of text positions that two windows have in common, each window holding the
positions from its start up to its end, both clamped to the text as `substring` clamps them. -/
def sharedCount (text : Units) (w w' : Int × Int) : Int :=
  max 0 (min (min (max w.2 0) text.length) (min (max w'.2 0) text.length)
    - max (min (max w.1 0) text.length) (min (max w'.1 0) text.length))

/-- The chunk that one pass of the loop pushes for the window `w`. -/
def chunkOf (text : Units) (w : Int × Int) : Units :=
  trimUnits (substring text w.1 w.2)

/-- A sample text of 35 code units. -/
def sampleText : Units :=
  utf16 "One two. Three four five six seven.".toList

/-! ## documentProcessor.js and the upload handler -/

/-- What the file system and the two extraction libraries give for the uploaded file.  A call
throws (`Except.error`, the message of the thrown error) or returns; a text that is `null` or
`undefined` is `none`. -/
structure FileReads where
  /-- The call `fs.readFileSync(filePath, 'utf8')` of `processText`. -/
  readFileSync : Except JSString JSString
  /-- Reading the file and the first `pdfParse` call of `processPDF`: the field `data.text`. -/
  pdfParse : Except JSString (Option JSString)
  /-- Reading the file and the second `pdfParse` call of `processPDF`: `data.text`. -/
  pdfParseFallback : Except JSString (Option JSString)
  /-- The call `mammoth.extractRawText` of `processWord`: the field `result.value`. -/
  extractRawText : Except JSString (Option JSString)

/-- The test `!text || text.trim().length === 0` on a text that may be missing. -/
def isBlank : Option JSString → Bool
  | none => true
  | some text => decide (text = []) || decide (jsLength (trim text) = 0)

/-- `processText(filePath)`: an error thrown inside the `try` block is wrapped by the `catch`
block. -/
def processText (env : FileReads) : Except JSString JSString :=
  match env.readFileSync with
  | .error message => .error ("Failed to process text file: ".toList ++ message)
  | .ok content =>
    if isBlank (some content) then
      .error ("Failed to process text file: ".toList ++ "No content found in text file".toList)
    else .ok (trim content)

/-- `processWord(filePath)`. -/
def processWord (env : FileReads) : Except JSString JSString :=
  match env.extractRawText with
  | .error message => .error ("Failed to process Word document: ".toList ++ message)
  | .ok none =>
    .error ("Failed to process Word document: ".toList
      ++ "No text content found in Word document".toList)
  | .ok (some value) =>
    if isBlank (some value) then
      .error ("Failed to process Word document: ".toList
        ++ "No text content found in Word document".toList)
    else .ok (trim value)

/-- The `try` block of `processPDF`. -/
def processPDFFirst (env : FileReads) : Except JSString JSString :=
  match env.pdfParse with
  | .error message => .error message
  | .ok none => .error "No text content found in PDF".toList
  | .ok (some text) =>
    if isBlank (some text) then .error "No text content found in PDF".toList
    else .ok (trim text)

/-- `processPDF(filePath)`: when the first attempt throws, the `catch` block tries once more
and otherwise throws an error that wraps the first one. -/
def processPDF (env : FileReads) : Except JSString JSString :=
  match processPDFFirst env with
  | .ok text => .ok text
  | .error message =>
    match env.pdfParseFallback with
    | .ok (some text) =>
      if isBlank (some text) then .error ("Failed to process PDF: ".toList ++ message)
      else .ok (trim text)
    | _ => .error ("Failed to process PDF: ".toList ++ message)

/-- `processDocument(filePath)`, as a function of `fileExtension`, the lower-cased extension
of the path; its `catch` block logs and rethrows. -/
def processDocument (fileExtension : JSString) (env : FileReads) : Except JSString JSString :=
  if fileExtension = ".pdf".toList then processPDF env
  else if fileExtension = ".docx".toList ∨ fileExtension = ".doc".toList then processWord env
  else if fileExtension = ".txt".toList ∨ fileExtension = ".md".toList then processText env
  else .error ("Unsupported file type: ".toList ++ fileExtension)

/-- The test `!extractedText || extractedText.trim().length === 0` of the upload handler, whose
branch answers 400 `Could not extract text from document`. -/
def couldNotExtract (extractedText : JSString) : Bool :=
  decide (extractedText = []) || decide (jsLength (trim extractedText) = 0)

/-- The environment in which reading the file gives `content` and the libraries fail. -/
def textFile (content : JSString) : FileReads :=
  { readFileSync := .ok content
    pdfParse := .error "not a PDF".toList
    pdfParseFallback := .error "not a PDF".toList
    extractRawText := .error "not a Word document".toList }

/-! ## Predicates used in the statements -/

/-- A comparator that orders by a numeric key, larger keys first: `after a b` exactly when the
key of `a` is below the key of `b`. -/
def OrdersBy {α : Type} (after : α → α → Bool) (key : α → ℚ) : Prop :=
  ∀ a b, after a b = true ↔ key a < key b

/-- The string begins with a character of the class. -/
def beginsWith (sep : Char → Bool) : JSString → Bool
  | [] => false
  | c :: _ => sep c

/-- The string ends with a character of the class. -/
def endsWith (sep : Char → Bool) : JSString → Bool
  | [] => false
  | [c] => sep c
  | _ :: d :: ds => endsWith sep (d :: ds)

/-- A number, or a string or built-in object whose text holds `[`. -/
def Bracketed : JSVal → Prop
  | .num _ => True
  | .str s => '[' ∈ s
  | .obj text => '[' ∈ text

/-- The numeric entry that a count of `c` occurrences leaves in the table. -/
def countEntry (c : Nat) : Option JSVal :=
  if c = 0 then none else some (.num c)

/-- The texts none of whose tokens, of the whole text or of a sentence, is a key that the
frequency table inherits. -/
def NoInheritedKey (toLowerCase : JSString → JSString) (text : JSString) : Prop :=
  (∀ w ∈ longWords toLowerCase text, inherited w = none) ∧
    ∀ s ∈ sentences text, ∀ w ∈ splitRuns isWhiteSpace (toLowerCase s), inherited w = none

/-! ## Evaluations on small inputs -/

example : splitRuns isWhiteSpace "a  b".toList = ["a".toList, "b".toList] := by decide
example : splitRuns isWhiteSpace " a".toList = ["".toList, "a".toList] := by decide
example : splitRuns isWhiteSpace "a \n".toList = ["a".toList, "".toList] := by decide
example : splitRuns isWhiteSpace " ".toList = [[], []] := by decide
example : trim " a b ".toList = "a b".toList := by decide
example : asciiLower "Hello World".toList = "hello world".toList := by decide
example : calculateSimilarity asciiLower "a a".toList "a".toList = 2 := by
  have h1 : (intersection asciiLower "a a".toList "a".toList).length = 2 := by decide
  have h2 : (union asciiLower "a a".toList "a".toList).length = 1 := by decide
  rw [calculateSimilarity, h1, h2]; norm_num

example : sentences "Hi there. Ok! ".toList = ["Hi there".toList, " Ok".toList] := by decide
example : sentences "...".toList = [] := by decide
example : generateSummary asciiLower "".toList = ".".toList := by decide

example : answerQuestion asciiLower "Where do CATS sleep?".toList
    "Dogs bark. Cats sleep a lot! Many cats purr. Cats".toList
    = " Cats sleep a lot  Many cats purr".toList := by decide
example : answerQuestion asciiLower "Where is the cat?".toList "The cat sat.".toList
    = notFoundMessage := by decide

example : utf16 "a.\n".toList = [97, 46, 10] := by decide
example : substring (utf16 "abcdef".toList) 2 4 = utf16 "cd".toList := by decide
example : substring (utf16 "abcdef".toList) 4 2 = utf16 "cd".toList := by decide
example : substring (utf16 "abcdef".toList) (-3) 100 = utf16 "abcdef".toList := by decide
example : lastIndexOf (utf16 "a.b.c".toList) 46 2 = 1 := by decide
example : lastIndexOf (utf16 "a.b.c".toList) 46 3 = 3 := by decide
example : lastIndexOf (utf16 "a.b.c".toList) 46 100 = 3 := by decide
example : lastIndexOf (utf16 "a.b.c".toList) 46 0 = -1 := by decide
example : lastIndexOf (utf16 ".b.c".toList) 46 (-7) = 0 := by decide
example : breakPoint (utf16 "abcd.efgh".toList) 4 = 4 := by decide

example : processDocument ".txt".toList (textFile "  Hello world \n".toList)
    = .ok "Hello world".toList := by rfl
example : processDocument ".md".toList (textFile " \n ".toList)
    = .error "Failed to process text file: No content found in text file".toList := by rfl
example : processDocument ".exe".toList (textFile "x".toList)
    = .error "Unsupported file type: .exe".toList := by rfl

/-! ## Lemmas on the array primitives -/

theorem splitRuns_ne_nil (sep : Char → Bool) (s : JSString) : splitRuns sep s ≠ [] := by
  induction s with
  | nil => simp [splitRuns]
  | cons c cs ih =>
    unfold splitRuns
    split
    · cases cs with
      | nil => simp
      | cons d ds =>
        dsimp only
        split
        · exact ih
        · simp
    · split <;> simp

theorem mem_newSet {α : Type} [DecidableEq α] (l : List α) (a : α) : a ∈ newSet l ↔ a ∈ l := by
  induction l with
  | nil => simp [newSet]
  | cons x xs ih =>
    simp only [newSet, List.mem_cons, List.mem_filter, ih, decide_eq_true_eq]
    by_cases h : a = x <;> simp [h]

theorem nodup_newSet {α : Type} [DecidableEq α] (l : List α) : (newSet l).Nodup := by
  induction l with
  | nil => simp [newSet]
  | cons x xs ih =>
    simp only [newSet, List.nodup_cons, List.mem_filter, decide_eq_true_eq]
    exact ⟨fun h => h.2 rfl, ih.filter _⟩

theorem union_ne_nil (toLowerCase : JSString → JSString) (text1 text2 : JSString) :
    union toLowerCase text1 text2 ≠ [] := by
  have h := splitRuns_ne_nil isWhiteSpace (toLowerCase text1)
  unfold union words
  cases hw : splitRuns isWhiteSpace (toLowerCase text1) with
  | nil => exact absurd hw h
  | cons w ws => simp [newSet]

theorem perm_insertSorted {α : Type} (after : α → α → Bool) (x : α) (l : List α) :
    (insertSorted after x l).Perm (x :: l) := by
  induction l with
  | nil => simp [insertSorted]
  | cons y ys ih =>
    unfold insertSorted
    split
    · exact (ih.cons y).trans (List.Perm.swap x y ys)
    · exact List.Perm.refl _

theorem perm_sort {α : Type} (after : α → α → Bool) (l : List α) : (sort after l).Perm l := by
  induction l with
  | nil => simp [sort]
  | cons x xs ih => exact (perm_insertSorted after x _).trans (ih.cons x)

theorem length_sort {α : Type} (after : α → α → Bool) (l : List α) :
    (sort after l).length = l.length :=
  (perm_sort after l).length_eq

theorem pairwise_insertSorted {α : Type} {after : α → α → Bool} {key : α → ℚ}
    (h : OrdersBy after key) (x : α) (l : List α)
    (hl : l.Pairwise (fun a b => key b ≤ key a)) :
    (insertSorted after x l).Pairwise (fun a b => key b ≤ key a) := by
  induction l with
  | nil => simp [insertSorted]
  | cons y ys ih =>
    rw [List.pairwise_cons] at hl
    unfold insertSorted
    split
    · rename_i hxy
      rw [List.pairwise_cons]
      refine ⟨?_, ih hl.2⟩
      intro z hz
      rcases List.mem_cons.1 ((perm_insertSorted after x ys).mem_iff.1 hz) with rfl | hz
      · exact le_of_lt ((h _ _).1 hxy)
      · exact hl.1 z hz
    · rename_i hxy
      have hyx : key y ≤ key x := not_lt.1 (fun hlt => hxy ((h _ _).2 hlt))
      rw [List.pairwise_cons]
      refine ⟨?_, List.pairwise_cons.2 hl⟩
      intro z hz
      rcases List.mem_cons.1 hz with rfl | hz
      · exact hyx
      · exact le_trans (hl.1 z hz) hyx

theorem pairwise_sort {α : Type} {after : α → α → Bool} {key : α → ℚ}
    (h : OrdersBy after key) (l : List α) :
    (sort after l).Pairwise (fun a b => key b ≤ key a) := by
  induction l with
  | nil => simp [sort]
  | cons x xs ih => exact pairwise_insertSorted h x _ ih

theorem filter_insertSorted {α : Type} {after : α → α → Bool} {key : α → ℚ}
    (h : OrdersBy after key) (v : ℚ) (x : α) (l : List α) :
    (insertSorted after x l).filter (fun a => decide (key a = v)) =
      (x :: l).filter (fun a => decide (key a = v)) := by
  induction l with
  | nil => simp [insertSorted]
  | cons y ys ih =>
    unfold insertSorted
    split
    · rename_i hxy
      have hlt : key x < key y := (h _ _).1 hxy
      rw [List.filter_cons, ih]
      by_cases hx : key x = v
      · have hy : key y ≠ v := fun hy => by rw [hx, hy] at hlt; exact lt_irrefl _ hlt
        simp [List.filter_cons, hx, hy]
      · simp [List.filter_cons, hx]
    · rfl

/-- Stability: the elements of any one key keep their input order. -/
theorem filter_sort {α : Type} {after : α → α → Bool} {key : α → ℚ}
    (h : OrdersBy after key) (v : ℚ) (l : List α) :
    (sort after l).filter (fun a => decide (key a = v)) =
      l.filter (fun a => decide (key a = v)) := by
  induction l with
  | nil => simp [sort]
  | cons x xs ih =>
    show (insertSorted after x (sort after xs)).filter _ = _
    rw [filter_insertSorted h, List.filter_cons, List.filter_cons, ih]

theorem ordersBy_bySimilarity : OrdersBy bySimilarity SearchResult.similarity := by
  intro a b
  simp [bySimilarity]

/-- A sort whose comparator is never positive leaves the array as it is. -/
theorem sort_eq_self {α : Type} (after : α → α → Bool) (l : List α)
    (h : ∀ a ∈ l, ∀ b ∈ l, after a b = false) : sort after l = l := by
  induction l with
  | nil => rfl
  | cons x xs ih =>
    have hxs : sort after xs = xs :=
      ih (fun a ha b hb => h a (List.mem_cons_of_mem _ ha) b (List.mem_cons_of_mem _ hb))
    show insertSorted after x (sort after xs) = x :: xs
    rw [hxs]
    cases xs with
    | nil => rfl
    | cons y ys =>
      have := h x (List.mem_cons_self _ _) y (by simp)
      simp [insertSorted, this]

/-! ## Lemmas on `split` and `trim` -/

theorem endsWith_cons_of_not (sep : Char → Bool) (c : Char) (cs : JSString)
    (h : sep c = false) : endsWith sep (c :: cs) = endsWith sep cs := by
  cases cs with
  | nil => simp [endsWith, h]
  | cons d ds => rfl

theorem splitRuns_shape (sep : Char → Bool) (s : JSString) :
    ∃ w ws, splitRuns sep s = w :: ws ∧
      (w = [] ↔ s = [] ∨ beginsWith sep s = true) ∧
      ([] ∈ ws ↔ endsWith sep s = true) := by
  induction s with
  | nil => exact ⟨[], [], rfl, by simp, by simp [endsWith]⟩
  | cons c cs ih =>
    obtain ⟨w, ws, hw, hhead, htail⟩ := ih
    by_cases hc : sep c = true
    · cases cs with
      | nil => exact ⟨[], [[]], by simp [splitRuns, hc], by simp [beginsWith, hc],
          by simp [endsWith, hc]⟩
      | cons d ds =>
        by_cases hd : sep d = true
        · refine ⟨w, ws, by rw [← hw]; simp [splitRuns, hc, hd], ?_, ?_⟩
          · have : w = [] := hhead.2 (Or.inr (by simp [beginsWith, hd]))
            simp [this, beginsWith, hc]
          · simpa [endsWith] using htail
        · refine ⟨[], w :: ws, by rw [← hw]; simp [splitRuns, hc, hd], by simp [beginsWith, hc],
            ?_⟩
          have hne : w ≠ [] := fun h => by
            rcases hhead.1 h with h | h
            · cases h
            · exact hd (by simpa [beginsWith] using h)
          rw [List.mem_cons]
          constructor
          · rintro (h | h)
            · exact absurd h.symm hne
            · simpa [endsWith] using htail.1 h
          · intro h
            exact Or.inr (htail.2 (by simpa [endsWith] using h))
    · have hc' : sep c = false := by simpa using hc
      refine ⟨c :: w, ws, by simp [splitRuns, hc', hw], by simp [beginsWith, hc'], ?_⟩
      rw [endsWith_cons_of_not sep c cs hc']
      exact htail

/-- A split on runs of a class yields an empty piece exactly for the empty string and for a
string that begins or ends with a character of the class. -/
theorem nil_mem_splitRuns_iff (sep : Char → Bool) (s : JSString) :
    [] ∈ splitRuns sep s ↔ s = [] ∨ beginsWith sep s = true ∨ endsWith sep s = true := by
  obtain ⟨w, ws, hw, hhead, htail⟩ := splitRuns_shape sep s
  rw [hw, List.mem_cons, ← htail, ← or_assoc, ← hhead]
  constructor
  · rintro (h | h)
    · exact Or.inl h.symm
    · exact Or.inr h
  · rintro (h | h)
    · exact Or.inl h.symm
    · exact Or.inr h

theorem dropWhile_eq_self_iff_beginsWith (sep : Char → Bool) (s : JSString) :
    s.dropWhile sep = s ↔ beginsWith sep s = false := by
  cases s with
  | nil => simp [beginsWith]
  | cons c cs =>
    by_cases hc : sep c = true
    · simp only [beginsWith, hc, List.dropWhile_cons_of_pos]
      constructor
      · intro h
        have h1 := (List.dropWhile_suffix sep (l := cs)).length_le
        rw [h] at h1
        simp at h1
      · intro h; cases h
    · simp [beginsWith, hc, List.dropWhile_cons_of_neg]

theorem endsWith_append_singleton (sep : Char → Bool) (s : JSString) (c : Char) :
    endsWith sep (s ++ [c]) = sep c := by
  induction s with
  | nil => rfl
  | cons d ds ih =>
    cases ds with
    | nil => rfl
    | cons e es => exact ih

theorem rdropWhile_eq_self_iff_endsWith (sep : Char → Bool) (s : JSString) :
    s.rdropWhile sep = s ↔ endsWith sep s = false := by
  rcases List.eq_nil_or_concat s with rfl | ⟨t, c, rfl⟩
  · simp [endsWith]
  · rw [List.concat_eq_append, endsWith_append_singleton, List.rdropWhile_concat]
    by_cases hc : sep c = true
    · simp only [hc, if_true]
      constructor
      · intro h
        have h1 := (List.rdropWhile_prefix sep (l := t)).length_le
        rw [h] at h1
        simp at h1
      · intro h; cases h
    · simp [hc]

/-- A string is its own `trim` exactly when it neither begins nor ends with whitespace. -/
theorem trim_eq_self_iff (s : JSString) :
    trim s = s ↔ beginsWith isWhiteSpace s = false ∧ endsWith isWhiteSpace s = false := by
  rw [← dropWhile_eq_self_iff_beginsWith, ← rdropWhile_eq_self_iff_endsWith]
  have ht : trim s = (s.dropWhile isWhiteSpace).rdropWhile isWhiteSpace := rfl
  constructor
  · intro h
    have h1 := (List.rdropWhile_prefix isWhiteSpace (l := s.dropWhile isWhiteSpace)).length_le
    have h2 : s.dropWhile isWhiteSpace = s := by
      apply List.IsSuffix.eq_of_length_le ( List.dropWhile_suffix isWhiteSpace)
      rw [← ht, h] at h1
      exact h1
    rw [ht, h2] at h
    exact ⟨h2, h⟩
  · rintro ⟨h1, h2⟩
    rw [ht, h1, h2]

/-- A text splits into no empty token exactly when it is non-empty and is its own `trim`. -/
theorem nil_not_mem_tokens_iff (s : JSString) :
    [] ∉ splitRuns isWhiteSpace s ↔ s ≠ [] ∧ trim s = s := by
  rw [nil_mem_splitRuns_iff, trim_eq_self_iff]
  cases beginsWith isWhiteSpace s <;> cases endsWith isWhiteSpace s <;> simp

/-! ## vectorStore.js: the ranker -/

/-- C1 (fails on the code): for the query `a a` and the document `a`, `calculateSimilarity`
returns 2, because `intersection` keeps the repeated query token while `union` is deduplicated;
the Jaccard similarity of the two token sets is 1. -/
theorem calculateSimilarity_repeated_token :
    calculateSimilarity asciiLower "a a".toList "a".toList = 2 ∧
      jaccard (tokenSet asciiLower "a a".toList) (tokenSet asciiLower "a".toList) = 1 := by
  have h1 : (intersection asciiLower "a a".toList "a".toList).length = 2 := by decide
  have h2 : (union asciiLower "a a".toList "a".toList).length = 1 := by decide
  have h3 : (tokenSet asciiLower "a a".toList ∩ tokenSet asciiLower "a".toList).card = 1 := by
    decide
  have h4 : (tokenSet asciiLower "a a".toList ∪ tokenSet asciiLower "a".toList).card = 1 := by
    decide
  constructor
  · rw [calculateSimilarity, h1, h2]; norm_num
  · rw [jaccard, h3, h4]; norm_num

/-- C2: for every query, every fetched list of documents and every limit `K`, `search` returns
exactly `min K n` results whatever their scores are; the returned results together with some
list `rest` are a rearrangement of all scored documents, and every returned result has a
similarity at least that of every element of `rest`. -/
theorem search_top_k {ε : Type} (toLowerCase : JSString → JSString) (query : JSString)
    (docs : List Doc) (K : Nat) :
    ∃ res rest : List SearchResult,
      search toLowerCase (FetchOutcome.resolved (some docs) none : FetchOutcome ε) query K
          = Except.ok res ∧
        res.length = min K docs.length ∧
        (res ++ rest).Perm (docs.map (toResult toLowerCase query)) ∧
        ∀ r ∈ res, ∀ x ∈ rest, x.similarity ≤ r.similarity := by
  cases docs with
  | nil => exact ⟨[], [], rfl, by simp, by simp, by simp⟩
  | cons d ds =>
    refine ⟨(sort bySimilarity ((d :: ds).map (toResult toLowerCase query))).take K,
      (sort bySimilarity ((d :: ds).map (toResult toLowerCase query))).drop K, rfl, ?_, ?_, ?_⟩
    · rw [List.length_take, length_sort, List.length_map]
    · rw [List.take_append_drop]
      exact perm_sort _ _
    · have hs := pairwise_sort ordersBy_bySimilarity ((d :: ds).map (toResult toLowerCase query))
      rw [← List.take_append_drop K (sort bySimilarity _), List.pairwise_append] at hs
      exact hs.2.2

/-- C3: for every query, document list and limit, the similarities of the list returned by
`search` never increase from one element to a later one. -/
theorem search_sorted {ε : Type} (toLowerCase : JSString → JSString) (query : JSString)
    (docs : List Doc) (limit : Nat) :
    ∃ res : List SearchResult,
      search toLowerCase (FetchOutcome.resolved (some docs) none : FetchOutcome ε) query limit
          = Except.ok res ∧
        res.Pairwise (fun a b => b.similarity ≤ a.similarity) := by
  cases docs with
  | nil => exact ⟨[], rfl, List.Pairwise.nil⟩
  | cons d ds =>
    refine ⟨_, rfl, ?_⟩
    exact (pairwise_sort ordersBy_bySimilarity _).sublist (List.take_sublist _ _)

/-- C4: the sort in `search` is stable.  For every similarity value `v`, the returned results
of similarity `v` are a leading segment of the scored documents of similarity `v` in fetched
order; hence two returned results of equal similarity, one before the other, occur in that
order in the fetched list. -/
theorem search_stable {ε : Type} (toLowerCase : JSString → JSString) (query : JSString)
    (docs : List Doc) (limit : Nat) :
    ∃ res : List SearchResult,
      search toLowerCase (FetchOutcome.resolved (some docs) none : FetchOutcome ε) query limit
          = Except.ok res ∧
        (∀ v : ℚ, List.IsPrefix (res.filter (fun r => decide (r.similarity = v)))
          ((docs.map (toResult toLowerCase query)).filter
            (fun r => decide (r.similarity = v)))) ∧
        ∀ a b : SearchResult, List.Sublist [a, b] res → a.similarity = b.similarity →
          List.Sublist [a, b] (docs.map (toResult toLowerCase query)) := by
  have key : ∀ (l : List SearchResult) (v : ℚ),
      List.IsPrefix
        (((sort bySimilarity l).take limit).filter (fun r => decide (r.similarity = v)))
        (l.filter (fun r => decide (r.similarity = v))) := by
    intro l v
    rw [← filter_sort ordersBy_bySimilarity v l]
    exact List.IsPrefix.filter _ ( List.take_prefix _ _)
  have pair : ∀ (l res : List SearchResult),
      (∀ v : ℚ, List.IsPrefix (res.filter (fun r => decide (r.similarity = v)))
        (l.filter (fun r => decide (r.similarity = v)))) →
      ∀ a b : SearchResult, List.Sublist [a, b] res → a.similarity = b.similarity →
        List.Sublist [a, b] l := by
    intro l res h a b hab heq
    have h1 : List.Sublist ([a, b].filter (fun r => decide (r.similarity = b.similarity)))
        (res.filter (fun r => decide (r.similarity = b.similarity))) := hab.filter _
    have h2 : [a, b].filter (fun r => decide (r.similarity = b.similarity)) = [a, b] := by
      simp [heq]
    rw [h2] at h1
    exact (h1.trans (h b.similarity).sublist).trans (List.filter_sublist _)
  cases docs with
  | nil => exact ⟨[], rfl, by simp, by simp⟩
  | cons d ds =>
    exact ⟨_, rfl, key _, pair _ _ (key _)⟩


theorem words_empty (toLowerCase : JSString → JSString) (h0 : toLowerCase [] = []) :
    words toLowerCase [] = [[]] := by
  simp [words, h0, splitRuns]

theorem intersection_empty_query (toLowerCase : JSString → JSString) (h0 : toLowerCase [] = [])
    (d : JSString) :
    intersection toLowerCase [] d = if [] ∈ words toLowerCase d then [[]] else [] := by
  simp only [intersection, words_empty toLowerCase h0]
  by_cases h : [] ∈ words toLowerCase d <;> simp [h]

theorem calculateSimilarity_empty_query (toLowerCase : JSString → JSString)
    (h0 : toLowerCase [] = []) (d : JSString) :
    calculateSimilarity toLowerCase [] d = 0 ↔ [] ∉ words toLowerCase d := by
  have hu : ((union toLowerCase [] d).length : ℚ) ≠ 0 := by
    have := union_ne_nil toLowerCase [] d
    exact_mod_cast fun h => this (List.length_eq_zero.1 h)
  rw [calculateSimilarity, intersection_empty_query toLowerCase h0]
  by_cases h : [] ∈ words toLowerCase d
  · simp [h, hu]
  · simp [h]

/-- C5 (as stated, fails on the code): the empty query against the empty document scores 1 and
against ` hello` (leading blank) scores 1/2, since the empty string splits into one empty token;
and with limit 1 over the documents `alpha`, `beta ` the empty query returns the second. -/
theorem empty_query_counterexample :
    calculateSimilarity asciiLower [] [] = 1 ∧
      calculateSimilarity asciiLower [] " hello".toList = 1 / 2 ∧
      search asciiLower
          (FetchOutcome.resolved
            (some [mkDoc "a.txt".toList "alpha".toList, mkDoc "b.txt".toList "beta ".toList])
            none : FetchOutcome Unit) [] 1
        = Except.ok [toResult asciiLower [] (mkDoc "b.txt".toList "beta ".toList)] := by
  have h1 : (intersection asciiLower [] []).length = 1 := by decide
  have h2 : (union asciiLower [] []).length = 1 := by decide
  have h3 : (intersection asciiLower [] " hello".toList).length = 1 := by decide
  have h4 : (union asciiLower [] " hello".toList).length = 2 := by decide
  have h5 : (intersection asciiLower [] "alpha".toList).length = 0 := by decide
  have h6 : (intersection asciiLower [] "beta ".toList).length = 1 := by decide
  have h7 : (union asciiLower [] "beta ".toList).length = 2 := by decide
  have ha : (toResult asciiLower [] (mkDoc "a.txt".toList "alpha".toList)).similarity = 0 := by
    show calculateSimilarity asciiLower [] "alpha".toList = 0
    rw [calculateSimilarity, h5]; norm_num
  have hb : (toResult asciiLower [] (mkDoc "b.txt".toList "beta ".toList)).similarity
      = 1 / 2 := by
    show calculateSimilarity asciiLower [] "beta ".toList = 1 / 2
    rw [calculateSimilarity, h6, h7]; norm_num
  refine ⟨?_, ?_, ?_⟩
  · rw [calculateSimilarity, h1, h2]; norm_num
  · rw [calculateSimilarity, h3, h4]; norm_num
  · have hab : bySimilarity (toResult asciiLower [] (mkDoc "a.txt".toList "alpha".toList))
        (toResult asciiLower [] (mkDoc "b.txt".toList "beta ".toList)) = true := by
      rw [bySimilarity, ha, hb]; norm_num
    simp only [search, List.map, sort, insertSorted, hab, if_true, List.take]

/-- C5 (amended): when `toLowerCase` maps the empty string to itself, the empty query scores 0
against exactly the document texts whose lower-cased form is non-empty and is its own `trim`
(no leading or trailing whitespace); and over fetched documents all of that kind, `search`
with the empty query gives every document similarity 0 and returns the first `min limit n` of
them in fetched order. -/
theorem empty_query_scores {ε : Type} (toLowerCase : JSString → JSString)
    (h0 : toLowerCase [] = []) (docs : List Doc) (limit : Nat)
    (hdocs : ∀ d ∈ docs,
      toLowerCase d.content ≠ [] ∧ trim (toLowerCase d.content) = toLowerCase d.content) :
    (∀ d : JSString, calculateSimilarity toLowerCase [] d = 0 ↔
        (toLowerCase d ≠ [] ∧ trim (toLowerCase d) = toLowerCase d)) ∧
      (∀ d ∈ docs, (toResult toLowerCase [] d).similarity = 0) ∧
      search toLowerCase (FetchOutcome.resolved (some docs) none : FetchOutcome ε) [] limit
        = Except.ok ((docs.take limit).map (toResult toLowerCase [])) := by
  have hiff : ∀ d : JSString, calculateSimilarity toLowerCase [] d = 0 ↔
      (toLowerCase d ≠ [] ∧ trim (toLowerCase d) = toLowerCase d) := fun d =>
    (calculateSimilarity_empty_query toLowerCase h0 d).trans
      (nil_not_mem_tokens_iff (toLowerCase d))
  have hz : ∀ d ∈ docs, (toResult toLowerCase [] d).similarity = 0 := fun d hd =>
    (hiff d.content).2 (hdocs d hd)
  refine ⟨hiff, hz, ?_⟩
  cases docs with
  | nil => simp [search]
  | cons d ds =>
    have hs : sort bySimilarity ((d :: ds).map (toResult toLowerCase []))
        = (d :: ds).map (toResult toLowerCase []) := by
      apply sort_eq_self
      intro a ha b hb
      obtain ⟨x, hx, rfl⟩ := List.mem_map.1 ha
      obtain ⟨y, hy, rfl⟩ := List.mem_map.1 hb
      simp [bySimilarity, hz x hx, hz y hy]
    show Except.ok ((sort bySimilarity ((d :: ds).map (toResult toLowerCase []))).take limit) = _
    rw [hs, List.map_take]

/-- Witness for `empty_query_scores`: the documents `alpha beta` and `gamma`, limit 1. -/
theorem empty_query_scores_witness :
    (∀ d : JSString, calculateSimilarity asciiLower [] d = 0 ↔
        (asciiLower d ≠ [] ∧ trim (asciiLower d) = asciiLower d)) ∧
      (∀ d ∈ [mkDoc "a.txt".toList "alpha beta".toList, mkDoc "c.txt".toList "gamma".toList],
        (toResult asciiLower [] d).similarity = 0) ∧
      search asciiLower
          (FetchOutcome.resolved
            (some [mkDoc "a.txt".toList "alpha beta".toList, mkDoc "c.txt".toList "gamma".toList])
            none : FetchOutcome Unit) [] 1
        = Except.ok
            (([mkDoc "a.txt".toList "alpha beta".toList,
                mkDoc "c.txt".toList "gamma".toList].take 1).map (toResult asciiLower [])) :=
  empty_query_scores asciiLower rfl
    [mkDoc "a.txt".toList "alpha beta".toList, mkDoc "c.txt".toList "gamma".toList] 1
    (by decide)

/-- C6: when the fetch succeeds with no data at all or with an empty list, `search` returns the
empty list, for every query and every limit. -/
theorem search_no_documents {ε : Type} (toLowerCase : JSString → JSString) (query : JSString)
    (limit : Nat) :
    search toLowerCase (FetchOutcome.resolved none none : FetchOutcome ε) query limit
        = Except.ok [] ∧
      search toLowerCase (FetchOutcome.resolved (some []) none : FetchOutcome ε) query limit
        = Except.ok [] :=
  ⟨rfl, rfl⟩

/-- C7: `calculateSimilarity` sees its arguments only through `toLowerCase`: texts with equal
lower-cased forms get equal scores; and `Hello World` against `hello world` scores 1. -/
theorem calculateSimilarity_case_insensitive (toLowerCase : JSString → JSString)
    (q q' d d' : JSString) (hq : toLowerCase q = toLowerCase q')
    (hd : toLowerCase d = toLowerCase d') :
    calculateSimilarity toLowerCase q d = calculateSimilarity toLowerCase q' d' ∧
      calculateSimilarity asciiLower "Hello World".toList "hello world".toList = 1 := by
  constructor
  · simp only [calculateSimilarity, intersection, union, words, hq, hd]
  · have h1 : (intersection asciiLower "Hello World".toList "hello world".toList).length = 2 := by
      decide
    have h2 : (union asciiLower "Hello World".toList "hello world".toList).length = 2 := by
      decide
    rw [calculateSimilarity, h1, h2]; norm_num

/-- Witness for `calculateSimilarity_case_insensitive`: `Hello World` and `hELLO wORLD` as
queries, `Hello` and `HELLO` as documents. -/
theorem calculateSimilarity_case_insensitive_witness :
    calculateSimilarity asciiLower "Hello World".toList "Hello".toList
        = calculateSimilarity asciiLower "hELLO wORLD".toList "HELLO".toList ∧
      calculateSimilarity asciiLower "Hello World".toList "hello world".toList = 1 :=
  calculateSimilarity_case_insensitive asciiLower "Hello World".toList "hELLO wORLD".toList
    "Hello".toList "HELLO".toList (by decide) (by decide)

/-- C8: `search` fails exactly when the database fetch reports an error, and then it fails with
that very error; when the fetch reports none, `search` returns a list. -/
theorem search_fails_iff {ε : Type} (toLowerCase : JSString → JSString) (fetch : FetchOutcome ε)
    (query : JSString) (limit : Nat) :
    (∀ e : ε, search toLowerCase fetch query limit = Except.error e ↔
        reportedError fetch = some e) ∧
      (reportedError fetch = none ↔
        ∃ res, search toLowerCase fetch query limit = Except.ok res) := by
  cases fetch with
  | rejected e0 =>
    refine ⟨fun e => ?_, ?_⟩
    · simp [search, reportedError]
    · simp [search, reportedError]
  | resolved data err =>
    cases err with
    | some e0 =>
      refine ⟨fun e => ?_, ?_⟩
      · simp [search, reportedError]
      · simp [search, reportedError]
    | none =>
      have hok : ∃ res, search toLowerCase (FetchOutcome.resolved data none : FetchOutcome ε)
          query limit = Except.ok res := by
        cases data with
        | none => exact ⟨[], rfl⟩
        | some l =>
          cases l with
          | nil => exact ⟨[], rfl⟩
          | cons d ds => exact ⟨_, rfl⟩
      refine ⟨fun e => ?_, ?_⟩
      · obtain ⟨res, hres⟩ := hok
        simp [hres, reportedError]
      · simp [reportedError, hok]


/-! ## Lemmas on the frequency table -/

theorem bracketed_nativeFunction (name : JSString) : Bracketed (nativeFunction name) := by
  simp [nativeFunction, Bracketed]

theorem bracketed_inherited {key : JSString} {v : JSVal} (h : inherited key = some v) :
    Bracketed v := by
  unfold inherited at h
  split at h
  · cases h; exact bracketed_nativeFunction _
  · split at h
    · cases h; simp [Bracketed]
    · split at h
      · cases h; exact bracketed_nativeFunction _
      · cases h

theorem bracketed_orZero {o : Option JSVal} (h : ∀ v, o = some v → Bracketed v) :
    Bracketed (orZero o) := by
  cases o with
  | none => simp [orZero, Bracketed]
  | some v =>
    have hv := h v rfl
    cases v with
    | num n => simp [orZero, Bracketed]
    | str s =>
      simp only [orZero]
      split
      · simp [Bracketed]
      · exact hv
    | obj t => exact hv

theorem add_cases (a b : JSVal) (ha : Bracketed a) (hb : Bracketed b) :
    (∃ n, add a b = .num n) ∨ ∃ s, add a b = .str s ∧ '[' ∈ s := by
  cases a with
  | num x =>
    cases b with
    | num y => exact Or.inl ⟨_, rfl⟩
    | str s => exact Or.inr ⟨_, rfl, by simp [JSVal.toStr]; exact Or.inr hb⟩
    | obj t => exact Or.inr ⟨_, rfl, by simp [JSVal.toStr]; exact Or.inr hb⟩
  | str s => exact Or.inr ⟨_, rfl, by simp [JSVal.toStr]; exact Or.inl ha⟩
  | obj t => exact Or.inr ⟨_, rfl, by simp [JSVal.toStr]; exact Or.inl ha⟩

theorem bracketed_add {a b : JSVal} (ha : Bracketed a) (hb : Bracketed b) :
    Bracketed (add a b) := by
  rcases add_cases a b ha hb with ⟨n, h⟩ | ⟨s, h, hs⟩
  · rw [h]; trivial
  · rw [h]; exact hs

theorem mem_of_own {t : Table} {key : JSString} {v : JSVal} (h : t.own key = some v) :
    ∃ k, (k, v) ∈ t := by
  induction t with
  | nil => simp [Table.own] at h
  | cons p rest ih =>
    obtain ⟨k, w⟩ := p
    simp only [Table.own] at h
    split at h
    · cases h; exact ⟨k, List.mem_cons_self _ _⟩
    · obtain ⟨k', hk⟩ := ih h
      exact ⟨k', List.mem_cons_of_mem _ hk⟩

theorem mem_put {t : Table} {key : JSString} {v : JSVal} {p : JSString × JSVal}
    (h : p ∈ t.put key v) : p ∈ t ∨ p.2 = v := by
  induction t with
  | nil =>
    simp only [Table.put, List.mem_singleton] at h
    exact Or.inr (by rw [h])
  | cons q rest ih =>
    obtain ⟨k, w⟩ := q
    simp only [Table.put] at h
    split at h
    · rcases List.mem_cons.1 h with h | h
      · exact Or.inr (by rw [h])
      · exact Or.inl (List.mem_cons_of_mem _ h)
    · rcases List.mem_cons.1 h with h | h
      · exact Or.inl (by rw [h]; exact List.mem_cons_self _ _)
      · rcases ih h with h | h
        · exact Or.inl (List.mem_cons_of_mem _ h)
        · exact Or.inr h

theorem bracketed_get {t : Table} (ht : ∀ p ∈ t, Bracketed p.2) (key : JSString) :
    ∀ v, t.get key = some v → Bracketed v := by
  intro v h
  unfold Table.get at h
  split at h
  · rename_i w hw
    cases h
    obtain ⟨k, hk⟩ := mem_of_own hw
    exact ht _ hk
  · exact bracketed_inherited h

theorem bracketed_wordFreq (toLowerCase : JSString → JSString) (text : JSString) :
    ∀ p ∈ wordFreq toLowerCase text, Bracketed p.2 := by
  unfold wordFreq
  generalize longWords toLowerCase text = ws
  have key : ∀ (ws : List JSString) (t : Table), (∀ p ∈ t, Bracketed p.2) →
      ∀ p ∈ ws.foldl (fun t word => t.set word (add (orZero (t.get word)) (.num 1))) t,
        Bracketed p.2 := by
    intro ws
    induction ws with
    | nil => intro t ht; exact ht
    | cons w ws ih =>
      intro t ht
      apply ih
      intro p hp
      simp only [Table.set] at hp
      split at hp
      · exact ht p hp
      · rcases mem_put hp with hp | hp
        · exact ht p hp
        · rw [hp]
          exact bracketed_add (bracketed_orZero (bracketed_get ht w)) trivial
  exact key ws [] (by simp)

/-- A score is a number or a string that holds `[`: a string score is no numeric literal, and
ToNumber of it is NaN. -/
theorem str_score_has_bracket (toLowerCase : JSString → JSString) (text : JSString) :
    ∀ item ∈ sentenceScores toLowerCase text,
      (∃ n, item.score = .num n) ∨ ∃ s, item.score = .str s ∧ '[' ∈ s := by
  intro item hitem
  unfold sentenceScores at hitem
  obtain ⟨sentence, _, rfl⟩ := List.mem_map.1 hitem
  have key : ∀ (ws : List JSString) (acc : JSVal),
      ((∃ n, acc = .num n) ∨ ∃ s, acc = .str s ∧ '[' ∈ s) →
      ((∃ n, ws.foldl (fun sum word =>
          add sum (orZero ((wordFreq toLowerCase text).get word))) acc = .num n) ∨
        ∃ s, ws.foldl (fun sum word =>
          add sum (orZero ((wordFreq toLowerCase text).get word))) acc = .str s ∧ '[' ∈ s) := by
    intro ws
    induction ws with
    | nil => intro acc h; exact h
    | cons w ws ih =>
      intro acc h
      apply ih
      apply add_cases
      · rcases h with ⟨n, rfl⟩ | ⟨s, rfl, hs⟩
        · trivial
        · exact hs
      · exact bracketed_orZero (bracketed_get (bracketed_wordFreq toLowerCase text) w)
  exact key _ _ (Or.inl ⟨0, rfl⟩)

theorem own_put (t : Table) (key k : JSString) (v : JSVal) :
    (t.put key v).own k = if key = k then some v else t.own k := by
  induction t with
  | nil => simp [Table.put, Table.own]
  | cons q rest ih =>
    obtain ⟨k0, w⟩ := q
    simp only [Table.put]
    by_cases h0 : k0 = key
    · subst h0
      by_cases h1 : k0 = k <;> simp [Table.own, h1]
    · simp only [h0, if_false, Table.own, ih]
      by_cases h1 : k0 = k
      · have h2 : key ≠ k := fun h => h0 (h1.trans h.symm)
        simp [h1, h2]
      · simp [h1]

theorem own_foldl_count (ws seen : List JSString) (t : Table)
    (hws : ∀ w ∈ ws, inherited w = none)
    (ht : ∀ k, t.own k = countEntry (seen.count k)) :
    ∀ k, (ws.foldl (fun t word => t.set word (add (orZero (t.get word)) (.num 1))) t).own k
      = countEntry ((seen ++ ws).count k) := by
  induction ws generalizing seen t with
  | nil => simpa using ht
  | cons w ws ih =>
    have hw : inherited w = none := hws w (List.mem_cons_self _ _)
    have hproto : w ≠ "__proto__".toList := by
      intro h
      rw [h] at hw
      exact absurd hw (by decide)
    have hget : orZero (t.get w) = .num (seen.count w) := by
      unfold Table.get
      rw [ht w, countEntry]
      by_cases hc : seen.count w = 0
      · simp [hc, hw, orZero]
      · simp [hc, orZero]
    intro k
    rw [List.foldl_cons]
    have := ih (seen ++ [w]) (t.set w (add (orZero (t.get w)) (.num 1)))
      (fun x hx => hws x (List.mem_cons_of_mem _ hx)) (by
        intro k
        rw [Table.set, if_neg hproto, own_put, hget, ht k]
        by_cases hk : w = k
        · subst hk
          simp [add, countEntry]
        · have hk' : (w == k) = false := by simpa using hk
          simp [hk, countEntry, List.count_cons, hk']) k
    simpa using this

theorem get_wordFreq (toLowerCase : JSString → JSString) (text : JSString)
    (hwords : ∀ w ∈ longWords toLowerCase text, inherited w = none)
    (word : JSString) (hword : inherited word = none) :
    orZero ((wordFreq toLowerCase text).get word)
      = .num ((longWords toLowerCase text).count word) := by
  have h := own_foldl_count (longWords toLowerCase text) [] [] hwords (by simp [Table.own, countEntry]) word
  unfold Table.get wordFreq
  rw [h, countEntry]
  by_cases hc : ([] ++ longWords toLowerCase text).count word = 0
  · simp only [List.nil_append] at hc
    simp [hc, hword, orZero]
  · simp only [List.nil_append] at hc
    simp [hc, orZero]

theorem foldl_add_num (f : JSString → Nat) (g : JSString → JSVal) (ws : List JSString)
    (h : ∀ w ∈ ws, g w = .num (f w)) (a : Nat) :
    ws.foldl (fun sum word => add sum (g word)) (.num a) = .num (a + (ws.map f).sum) := by
  induction ws generalizing a with
  | nil => simp
  | cons w ws ih =>
    rw [List.foldl_cons, h w (List.mem_cons_self _ _)]
    show List.foldl _ (JSVal.num (a + f w)) ws = _
    rw [ih (fun x hx => h x (List.mem_cons_of_mem _ hx))]
    simp [Nat.add_assoc]

/-- Away from the inherited keys the score of every sentence is the number that the
specification gives. -/
theorem sentenceScores_eq_specScore (toLowerCase : JSString → JSString) (text : JSString)
    (h : NoInheritedKey toLowerCase text) :
    sentenceScores toLowerCase text = (sentences text).map fun s =>
      { sentence := trim s, score := .num (specScore toLowerCase text s) } := by
  unfold sentenceScores
  apply List.map_congr_left
  intro s hs
  have := foldl_add_num (fun w => (longWords toLowerCase text).count w)
    (fun w => orZero ((wordFreq toLowerCase text).get w))
    (splitRuns isWhiteSpace (toLowerCase s))
    (fun w hw => get_wordFreq toLowerCase text h.1 w (h.2 s hs w hw)) 0
  simp only [this, specScore, Nat.zero_add]

theorem sort_map {α β : Type} (f : α → β) (after : α → α → Bool) (after' : β → β → Bool)
    (h : ∀ a b, after' (f a) (f b) = after a b) (l : List α) :
    sort after' (l.map f) = (sort after l).map f := by
  have hins : ∀ (x : α) (l : List α),
      insertSorted after' (f x) (l.map f) = (insertSorted after x l).map f := by
    intro x l
    induction l with
    | nil => rfl
    | cons y ys ih =>
      simp only [List.map_cons, insertSorted, h, ih]
      split <;> rfl
  induction l with
  | nil => rfl
  | cons x xs ih => simp only [List.map_cons, sort, ih, hins]

/-- Away from the inherited keys `generateSummary` returns the summary of the specification. -/
theorem generateSummary_eq_specSummary (toLowerCase : JSString → JSString) (text : JSString)
    (h : NoInheritedKey toLowerCase text) :
    generateSummary toLowerCase text = specSummary toLowerCase text := by
  unfold generateSummary specSummary
  rw [sentenceScores_eq_specScore toLowerCase text h]
  rw [sort_map (fun s => ({ sentence := trim s, score := .num (specScore toLowerCase text s) } : Scored))
    (fun a b => decide (specScore toLowerCase text a < specScore toLowerCase text b)) byScore]
  · simp only [← List.map_take, List.map_map]
    rfl
  · intro a b
    simp [byScore, toNumber]

/-! ## llmService.js: the summariser -/

/-- C9 (fails on the code): for the text `constructor. constructor constructor` both sentence
scores are strings, every comparison in the sort is NaN, and the summary keeps text order,
`constructor. constructor constructor.`; by the scores of the specification (2 and 4) the
second sentence comes first. -/
theorem generateSummary_inherited_key :
    generateSummary asciiLower "constructor. constructor constructor".toList
        = "constructor. constructor constructor.".toList ∧
      specSummary asciiLower "constructor. constructor constructor".toList
        = "constructor constructor. constructor.".toList ∧
      specScore asciiLower "constructor. constructor constructor".toList
        "constructor".toList = 2 ∧
      specScore asciiLower "constructor. constructor constructor".toList
        " constructor constructor".toList = 4 := by
  decide

/-- C10 (fails on the code): for the text `constructor` the table lookup finds the inherited
function `Object`, so the count and then the score of the only sentence are strings, not the
number 1 that the specification gives. -/
theorem sentenceScores_inherited_key :
    sentenceScores asciiLower "constructor".toList
        = [{ sentence := "constructor".toList,
             score := JSVal.str "0function Object() \x7b [native code] \x7d1".toList }] ∧
      specScore asciiLower "constructor".toList "constructor".toList = 1 := by
  decide

/-! ## llmService.js: answering a question -/

theorem splitRuns_pieces (sep : Char → Bool) (s : JSString) :
    ∃ w ws, splitRuns sep s = w :: ws ∧ List.IsPrefix w s ∧ (∀ p ∈ ws, List.IsInfix p s) ∧
      ∀ p ∈ w :: ws, ∀ c ∈ p, sep c = false := by
  induction s with
  | nil => exact ⟨[], [], rfl, List.prefix_refl _, by simp, by simp⟩
  | cons c cs ih =>
    obtain ⟨w, ws, hw, hpre, hinf, hsep⟩ := ih
    have hall : ∀ p ∈ w :: ws, List.IsInfix p (c :: cs) := by
      intro p hp
      rcases List.mem_cons.1 hp with rfl | hp
      · exact (hpre.isInfix).trans ( List.infix_cons (List.infix_refl _))
      · exact (hinf p hp).trans ( List.infix_cons (List.infix_refl _))
    by_cases hc : sep c = true
    · cases cs with
      | nil =>
        refine ⟨[], [[]], by simp [splitRuns, hc], List.nil_prefix, ?_, by simp⟩
        intro p hp
        simp only [List.mem_singleton] at hp
        subst hp
        exact ( List.nil_prefix).isInfix
      | cons d ds =>
        by_cases hd : sep d = true
        · refine ⟨w, ws, by rw [← hw]; simp [splitRuns, hc, hd], ?_,
            fun p hp => hall p (List.mem_cons_of_mem _ hp), hsep⟩
          have hwn : w = [] := by
            cases w with
            | nil => rfl
            | cons x xs =>
              have hx : x = d := by
                obtain ⟨t, ht⟩ := hpre
                simp at ht
                exact ht.1
              have := hsep (x :: xs) (List.mem_cons_self _ _) x (List.mem_cons_self _ _)
              rw [hx, hd] at this
              cases this
          rw [hwn]
          exact List.nil_prefix
        · refine ⟨[], w :: ws, by rw [← hw]; simp [splitRuns, hc, hd], List.nil_prefix, hall, ?_⟩
          intro p hp
          rcases List.mem_cons.1 hp with rfl | hp
          · simp
          · exact hsep p hp
    · have hc' : sep c = false := by simpa using hc
      refine ⟨c :: w, ws, by simp [splitRuns, hc', hw], ?_,
        fun p hp => hall p (List.mem_cons_of_mem _ hp), ?_⟩
      · obtain ⟨t, ht⟩ := hpre
        exact ⟨t, by simp [← ht]⟩
      · intro p hp
        rcases List.mem_cons.1 hp with rfl | hp
        · intro x hx
          rcases List.mem_cons.1 hx with rfl | hx
          · exact hc'
          · exact hsep w (List.mem_cons_self _ _) x hx
        · exact hsep p (List.mem_cons_of_mem _ hp)

/-- Every piece of a split is a contiguous piece of the string. -/
theorem infix_of_mem_splitRuns (sep : Char → Bool) (s p : JSString)
    (hp : p ∈ splitRuns sep s) : List.IsInfix p s := by
  obtain ⟨w, ws, hw, hpre, hinf, _⟩ := splitRuns_pieces sep s
  rw [hw] at hp
  rcases List.mem_cons.1 hp with rfl | hp
  · exact hpre.isInfix
  · exact hinf p hp

/-- No piece of a split holds a separator. -/
theorem not_sep_of_mem_splitRuns (sep : Char → Bool) (s p : JSString)
    (hp : p ∈ splitRuns sep s) : ∀ c ∈ p, sep c = false := by
  obtain ⟨w, ws, hw, _, _, hsep⟩ := splitRuns_pieces sep s
  rw [hw] at hp
  exact hsep p hp

theorem mem_join (sep : JSString) (parts : List JSString) (c : Char)
    (hc : c ∈ join sep parts) : c ∈ sep ∨ ∃ p ∈ parts, c ∈ p := by
  induction parts with
  | nil => simp [join] at hc
  | cons s rest ih =>
    cases rest with
    | nil => exact Or.inr ⟨s, by simp, by simpa [join] using hc⟩
    | cons t rest =>
      simp only [join, List.mem_append] at hc
      rcases hc with (hc | hc) | hc
      · exact Or.inr ⟨s, by simp, hc⟩
      · exact Or.inl hc
      · rcases ih hc with h | ⟨p, hp, hcp⟩
        · exact Or.inl h
        · exact Or.inr ⟨p, List.mem_cons_of_mem _ hp, hcp⟩

theorem mem_sentences {text s : JSString} (hs : s ∈ sentences text) :
    s ∈ splitRuns isSentenceEnd text :=
  (List.mem_filter.1 hs).1

theorem isRelevant_iff (toLowerCase : JSString → JSString) (question sentence : JSString) :
    isRelevant toLowerCase question sentence = true ↔
      ∃ word ∈ questionWords toLowerCase question,
        jsLength word > 3 ∧ List.IsInfix word (toLowerCase sentence) := by
  simp [isRelevant, includes, List.any_eq_true]

/-- An answer built from relevant sentences holds no full stop, so it is not the fixed
message. -/
theorem join_relevant_ne_notFound (toLowerCase : JSString → JSString)
    (question context : JSString) :
    join " ".toList ((relevantSentences toLowerCase question context).take 2)
      ≠ notFoundMessage := by
  intro h
  have hdot : '.' ∈ notFoundMessage := by decide
  rw [← h] at hdot
  rcases mem_join _ _ _ hdot with h1 | ⟨p, hp, hcp⟩
  · exact absurd h1 (by decide)
  · have hp1 : p ∈ sentences context :=
      (List.mem_filter.1 (List.mem_of_mem_take hp)).1
    have := not_sep_of_mem_splitRuns isSentenceEnd context p (mem_sentences hp1) '.' hcp
    exact absurd this (by decide)

/-- C11: `answerQuestion` returns the fixed not-found message exactly when no non-blank sentence
of the context holds, in its lower-cased form, a word of the lower-cased question that is longer
than 3 characters. -/
theorem answerQuestion_notFound_iff (toLowerCase : JSString → JSString)
    (question context : JSString) :
    answerQuestion toLowerCase question context = notFoundMessage ↔
      ∀ sentence ∈ sentences context,
        ¬ ∃ word ∈ questionWords toLowerCase question,
          jsLength word > 3 ∧ List.IsInfix word (toLowerCase sentence) := by
  have hnil : relevantSentences toLowerCase question context = [] ↔
      ∀ sentence ∈ sentences context,
        ¬ ∃ word ∈ questionWords toLowerCase question,
          jsLength word > 3 ∧ List.IsInfix word (toLowerCase sentence) := by
    rw [relevantSentences, List.filter_eq_nil_iff]
    constructor
    · intro h s hs hex
      exact h s hs ((isRelevant_iff toLowerCase question s).2 hex)
    · intro h s hs hrel
      exact h s hs ((isRelevant_iff toLowerCase question s).1 hrel)
  rw [← hnil, answerQuestion]
  by_cases hr : relevantSentences toLowerCase question context = []
  · simp [hr]
  · have hlen : (relevantSentences toLowerCase question context).length ≠ 0 := by
      simpa [List.length_eq_zero] using hr
    simp only [hlen, if_false, hr, iff_false]
    exact join_relevant_ne_notFound toLowerCase question context

/-- C12: when some sentence is relevant, `answerQuestion` returns the first relevant sentence,
or the first two joined by one space; the relevant sentences are the non-blank sentences that
pass the test, in context order, and each is a contiguous piece of the context. -/
theorem answerQuestion_relevant (toLowerCase : JSString → JSString)
    (question context : JSString)
    (h : relevantSentences toLowerCase question context ≠ []) :
    (match relevantSentences toLowerCase question context with
      | [] => False
      | [a] => answerQuestion toLowerCase question context = a
      | a :: b :: _ => answerQuestion toLowerCase question context = a ++ " ".toList ++ b) ∧
      List.Sublist (relevantSentences toLowerCase question context)
        (splitRuns isSentenceEnd context) ∧
      ∀ s ∈ (relevantSentences toLowerCase question context).take 2,
        isRelevant toLowerCase question s = true ∧ List.IsInfix s context := by
  refine ⟨?_, ?_, ?_⟩
  · unfold answerQuestion
    cases hr : relevantSentences toLowerCase question context with
    | nil => exact absurd hr h
    | cons a rest =>
      cases rest with
      | nil => simp [join]
      | cons b rest => simp [join]
  · exact ( List.filter_sublist _).trans ( List.filter_sublist _)
  · intro s hs
    have hs1 := List.mem_filter.1 (List.mem_of_mem_take hs)
    exact ⟨hs1.2, infix_of_mem_splitRuns isSentenceEnd context s (mem_sentences hs1.1)⟩

/-- Witness for `answerQuestion_relevant`: two relevant sentences out of three. -/
theorem answerQuestion_relevant_witness :
    (match relevantSentences asciiLower "Do cats purr".toList
        "Dogs bark. Cats purr! Old cats sleep".toList with
      | [] => False
      | [a] => answerQuestion asciiLower "Do cats purr".toList
          "Dogs bark. Cats purr! Old cats sleep".toList = a
      | a :: b :: _ => answerQuestion asciiLower "Do cats purr".toList
          "Dogs bark. Cats purr! Old cats sleep".toList = a ++ " ".toList ++ b) ∧
      List.Sublist (relevantSentences asciiLower "Do cats purr".toList
          "Dogs bark. Cats purr! Old cats sleep".toList)
        (splitRuns isSentenceEnd "Dogs bark. Cats purr! Old cats sleep".toList) ∧
      ∀ s ∈ (relevantSentences asciiLower "Do cats purr".toList
          "Dogs bark. Cats purr! Old cats sleep".toList).take 2,
        isRelevant asciiLower "Do cats purr".toList s = true ∧
          List.IsInfix s "Dogs bark. Cats purr! Old cats sleep".toList :=
  answerQuestion_relevant asciiLower "Do cats purr".toList
    "Dogs bark. Cats purr! Old cats sleep".toList (by decide)

/-! ## vectorStore.js: the similarity score against Jaccard similarity -/

theorem length_newSet {α : Type} [DecidableEq α] (l : List α) :
    (newSet l).length = l.toFinset.card := by
  rw [← List.toFinset_card_of_nodup (nodup_newSet l)]
  congr 1
  ext a
  simp [mem_newSet]

theorem length_union (toLowerCase : JSString → JSString) (text1 text2 : JSString) :
    (union toLowerCase text1 text2).length
      = (tokenSet toLowerCase text1 ∪ tokenSet toLowerCase text2).card := by
  rw [union, length_newSet, List.toFinset_append]
  rfl

theorem length_intersection_of_nodup (toLowerCase : JSString → JSString)
    (text1 text2 : JSString) (h : (words toLowerCase text1).Nodup) :
    (intersection toLowerCase text1 text2).length
      = (tokenSet toLowerCase text1 ∩ tokenSet toLowerCase text2).card := by
  rw [intersection, ← List.toFinset_card_of_nodup (h.filter _)]
  congr 1
  ext a
  simp [tokenSet]

/-- C16: when the token list of the lower-cased query holds no token twice,
`calculateSimilarity` is the Jaccard similarity of the two token sets. -/
theorem calculateSimilarity_eq_jaccard_of_nodup (toLowerCase : JSString → JSString)
    (q d : JSString) (h : (words toLowerCase q).Nodup) :
    calculateSimilarity toLowerCase q d
      = jaccard (tokenSet toLowerCase q) (tokenSet toLowerCase d) := by
  rw [calculateSimilarity, jaccard, length_union, length_intersection_of_nodup toLowerCase q d h]

/-- Witness for `calculateSimilarity_eq_jaccard_of_nodup`: the query `red green blue` against
the document `green green tea`. -/
theorem calculateSimilarity_eq_jaccard_of_nodup_witness :
    calculateSimilarity asciiLower "red green blue".toList "green green tea".toList
      = jaccard (tokenSet asciiLower "red green blue".toList)
          (tokenSet asciiLower "green green tea".toList) :=
  calculateSimilarity_eq_jaccard_of_nodup asciiLower "red green blue".toList
    "green green tea".toList (by decide)

/-- C17 (fails on the code): `calculateSimilarity` of `spam spam spam` against `spam` is 3,
above 1; the repeated query token is counted three times in `intersection` and once in
`union`. -/
theorem calculateSimilarity_above_one :
    calculateSimilarity asciiLower "spam spam spam".toList "spam".toList = 3 ∧
      ¬ (0 ≤ calculateSimilarity asciiLower "spam spam spam".toList "spam".toList ∧
        calculateSimilarity asciiLower "spam spam spam".toList "spam".toList ≤ 1) := by
  have h1 : (intersection asciiLower "spam spam spam".toList "spam".toList).length = 3 := by
    decide
  have h2 : (union asciiLower "spam spam spam".toList "spam".toList).length = 1 := by decide
  have h : calculateSimilarity asciiLower "spam spam spam".toList "spam".toList = 3 := by
    rw [calculateSimilarity, h1, h2]; norm_num
  refine ⟨h, ?_⟩
  rw [h]; norm_num

/-- C18 (fails on the code): `calculateSimilarity` of `to be or not to be` against `to be`
is 4/4 = 1, and with the arguments exchanged it is 2/4 = 1/2. -/
theorem calculateSimilarity_not_symmetric :
    calculateSimilarity asciiLower "to be or not to be".toList "to be".toList = 1 ∧
      calculateSimilarity asciiLower "to be".toList "to be or not to be".toList = 1 / 2 ∧
      calculateSimilarity asciiLower "to be or not to be".toList "to be".toList
        ≠ calculateSimilarity asciiLower "to be".toList "to be or not to be".toList := by
  have h1 : (intersection asciiLower "to be or not to be".toList "to be".toList).length = 4 := by
    decide
  have h2 : (union asciiLower "to be or not to be".toList "to be".toList).length = 4 := by
    decide
  have h3 : (intersection asciiLower "to be".toList "to be or not to be".toList).length = 2 := by
    decide
  have h4 : (union asciiLower "to be".toList "to be or not to be".toList).length = 4 := by
    decide
  have ha : calculateSimilarity asciiLower "to be or not to be".toList "to be".toList = 1 := by
    rw [calculateSimilarity, h1, h2]; norm_num
  have hb : calculateSimilarity asciiLower "to be".toList "to be or not to be".toList
      = 1 / 2 := by
    rw [calculateSimilarity, h3, h4]; norm_num
  refine ⟨ha, hb, ?_⟩
  rw [ha, hb]; norm_num

/-! ## Lemmas on the double threshold -/

theorem roundHalfEven_sub_le (q : ℚ) : |(roundHalfEven q : ℚ) - q| ≤ 1 / 2 := by
  have h1 := Int.floor_le q
  have h2 := Int.lt_floor_add_one q
  unfold roundHalfEven
  split_ifs with ha hb hc
  · rw [abs_le]; constructor <;> linarith
  · rw [abs_le]; push_cast; constructor <;> linarith
  · rw [abs_le]; constructor <;> linarith
  · rw [abs_le]; push_cast; constructor <;> linarith

theorem roundDouble_sub_le (x : ℚ) : |roundDouble x - x| ≤ |x| / 2 ^ 53 := by
  unfold roundDouble
  split_ifs with h0
  · simp [h0]
  · have hx : 0 < |x| := abs_pos.2 h0
    set u : ℚ := (2 : ℚ) ^ (Int.log 2 |x| - 52) with hu
    have hupos : 0 < u := zpow_pos (by norm_num) _
    have hle : (2 : ℚ) ^ (Int.log 2 |x|) ≤ |x| := by
      have := Int.zpow_log_le_self (b := 2) (r := |x|) (by norm_num) hx
      simpa using this
    have hu2 : u * 2 ^ 52 = (2 : ℚ) ^ (Int.log 2 |x|) := by
      rw [hu, zpow_sub₀ (by norm_num : (2 : ℚ) ≠ 0)]
      norm_num
    have key : (roundHalfEven (x / u) : ℚ) * u - x = ((roundHalfEven (x / u) : ℚ) - x / u) * u := by
      field_simp
    rw [key, abs_mul, abs_of_pos hupos]
    have := roundHalfEven_sub_le (x / u)
    calc |(roundHalfEven (x / u) : ℚ) - x / u| * u ≤ 1 / 2 * u := by
          exact mul_le_mul_of_nonneg_right this hupos.le
      _ = (u * 2 ^ 52) / 2 ^ 53 := by ring
      _ ≤ |x| / 2 ^ 53 := by
          rw [hu2]
          exact div_le_div_of_nonneg_right hle (by positivity)

theorem roundHalfEven_eq_of_near (q : ℚ) (n : ℤ) (h : |q - n| < 1 / 2) :
    roundHalfEven q = n := by
  have h1 := roundHalfEven_sub_le q
  have h2 : |((roundHalfEven q - n : ℤ) : ℚ)| < 1 := by
    have : ((roundHalfEven q - n : ℤ) : ℚ) = ((roundHalfEven q : ℚ) - q) + (q - n) := by
      push_cast; ring
    rw [this]
    calc |((roundHalfEven q : ℚ) - q) + (q - n)|
        ≤ |(roundHalfEven q : ℚ) - q| + |q - n| := abs_add _ _
      _ < 1 := by linarith
  have h3 : |roundHalfEven q - n| < 1 := by exact_mod_cast h2
  have h4 : roundHalfEven q - n = 0 := Int.abs_lt_one_iff.1 h3
  omega

theorem log_two_abs_eq (x : ℚ) (e : ℤ) (h1 : (2 : ℚ) ^ e ≤ |x|) (h2 : |x| < (2 : ℚ) ^ (e + 1)) :
    Int.log 2 |x| = e := by
  have hx : 0 < |x| := lt_of_lt_of_le (zpow_pos (by norm_num) _) h1
  have ha : e ≤ Int.log 2 |x| :=
    (Int.zpow_le_iff_le_log (b := 2) (by norm_num) hx).1 (by simpa using h1)
  have hb : Int.log 2 |x| < e + 1 :=
    (Int.lt_zpow_iff_log_lt (b := 2) (by norm_num) hx).1 (by simpa using h2)
  omega

/-- Evaluation of `roundDouble`: with `2 ^ e ≤ |x| < 2 ^ (e + 1)` and `n` the integer within
one half of `x / 2 ^ (e - 52)`, the double is `n * 2 ^ (e - 52)`. -/
theorem roundDouble_eq (x : ℚ) (e n : ℤ) (h1 : (2 : ℚ) ^ e ≤ |x|)
    (h2 : |x| < (2 : ℚ) ^ (e + 1)) (hn : |x / (2 : ℚ) ^ (e - 52) - n| < 1 / 2) :
    roundDouble x = n * (2 : ℚ) ^ (e - 52) := by
  have hx : x ≠ 0 := by
    intro h
    rw [h, abs_zero] at h1
    exact absurd h1 (not_le.2 (zpow_pos (by norm_num) _))
  rw [roundDouble, if_neg hx, log_two_abs_eq x e h1 h2, roundHalfEven_eq_of_near _ n hn]

theorem roundDouble_ninety : roundDouble ((90 : ℚ) * seventenths) = 8866461766385663 / 2 ^ 47 := by
  rw [roundDouble_eq _ 5 8866461766385663] <;> norm_num [seventenths, abs_of_pos]

theorem pastThreshold_ninety : pastThreshold 0 90 63 = true := by
  have h2 : roundDouble ((8866461766385663 : ℚ) / 2 ^ 47) = 8866461766385663 / 2 ^ 47 := by
    rw [roundDouble_eq _ 5 8866461766385663] <;> norm_num [abs_of_pos]
  simp only [pastThreshold, Int.cast_ofNat, Int.cast_zero, zero_add, roundDouble_ninety, h2]
  norm_num

theorem threshold_close (s m : Int) (hs : |(s : ℚ)| ≤ 2 ^ 40) (hm : |(m : ℚ)| ≤ 2 ^ 40) :
    |roundDouble ((s : ℚ) + roundDouble ((m : ℚ) * seventenths)) - ((s : ℚ) + 7 * m / 10)|
      < 1 / 10 := by
  set a : ℚ := (m : ℚ) * seventenths with ha
  set θ : ℚ := roundDouble a with hθ
  have h1 : |a - 7 * m / 10| = |(m : ℚ)| * (4 / (10 * 2 ^ 53)) := by
    have : a - 7 * m / 10 = (m : ℚ) * (-(4 / (10 * 2 ^ 53))) := by
      rw [ha, seventenths]; ring
    rw [this, abs_mul, abs_neg, abs_of_pos (by norm_num : (0 : ℚ) < 4 / (10 * 2 ^ 53))]
  have h2 : |a| ≤ |(m : ℚ)| := by
    rw [ha, abs_mul]
    have : |seventenths| ≤ 1 := by rw [seventenths, abs_of_pos] <;> norm_num
    calc |(m : ℚ)| * |seventenths| ≤ |(m : ℚ)| * 1 :=
          mul_le_mul_of_nonneg_left this (abs_nonneg _)
      _ = |(m : ℚ)| := mul_one _
  have h3 : |θ - a| ≤ |a| / 2 ^ 53 := roundDouble_sub_le a
  have h4 : |roundDouble ((s : ℚ) + θ) - ((s : ℚ) + θ)| ≤ |(s : ℚ) + θ| / 2 ^ 53 :=
    roundDouble_sub_le _
  have h5 : |θ| ≤ 2 * |(m : ℚ)| := by
    have : |θ| ≤ |θ - a| + |a| := by
      have := abs_add (θ - a) a
      simpa using this
    have h6 : |a| / 2 ^ 53 ≤ |a| := div_le_self (abs_nonneg _) (by norm_num)
    linarith
  have h7 : |(s : ℚ) + θ| ≤ |(s : ℚ)| + 2 * |(m : ℚ)| := (abs_add _ _).trans (by linarith)
  have hsplit : roundDouble ((s : ℚ) + θ) - ((s : ℚ) + 7 * m / 10)
      = (roundDouble ((s : ℚ) + θ) - ((s : ℚ) + θ)) + ((θ - a) + (a - 7 * m / 10)) := by ring
  rw [hsplit]
  have h8 := abs_add (roundDouble ((s : ℚ) + θ) - ((s : ℚ) + θ)) ((θ - a) + (a - 7 * m / 10))
  have h9 := abs_add (θ - a) (a - 7 * m / 10)
  have h10 : |(s : ℚ) + θ| / 2 ^ 53 ≤ (|(s : ℚ)| + 2 * |(m : ℚ)|) / 2 ^ 53 :=
    div_le_div_of_nonneg_right h7 (by positivity)
  have h11 : |a| / 2 ^ 53 ≤ |(m : ℚ)| / 2 ^ 53 := div_le_div_of_nonneg_right h2 (by positivity)
  have h12 : (|(s : ℚ)| + 2 * |(m : ℚ)|) / 2 ^ 53 + |(m : ℚ)| / 2 ^ 53
      + |(m : ℚ)| * (4 / (10 * 2 ^ 53)) < 1 / 10 := by
    have e1 : (|(s : ℚ)| + 2 * |(m : ℚ)|) / 2 ^ 53 + |(m : ℚ)| / 2 ^ 53
        + |(m : ℚ)| * (4 / (10 * 2 ^ 53))
        = (|(s : ℚ)| + (17 / 5) * |(m : ℚ)|) / 2 ^ 53 := by ring
    rw [e1, div_lt_iff₀ (by positivity)]
    norm_num at hs hm ⊢
    linarith
  linarith

/-- A break point that passes the double test lies at least `0.7 * maxChunkSize` past the
start. -/
theorem le_of_pastThreshold (s m b : Int) (hs : |(s : ℚ)| ≤ 2 ^ 40) (hm : |(m : ℚ)| ≤ 2 ^ 40)
    (h : pastThreshold s m b = true) : 7 * m ≤ 10 * (b - s) := by
  have hc := abs_lt.1 (threshold_close s m hs hm)
  simp only [pastThreshold, gt_iff_lt, decide_eq_true_eq] at h
  have h1 : (7 * m - 1 : ℚ) < 10 * (b - s) := by linarith [hc.1]
  have h2 : 7 * m - 1 < 10 * (b - s) := by exact_mod_cast h1
  omega

/-- A break point more than `0.7 * maxChunkSize` past the start passes the double test. -/
theorem pastThreshold_of_lt (s m b : Int) (hs : |(s : ℚ)| ≤ 2 ^ 40) (hm : |(m : ℚ)| ≤ 2 ^ 40)
    (h : 7 * m < 10 * (b - s)) : pastThreshold s m b = true := by
  have hc := abs_lt.1 (threshold_close s m hs hm)
  simp only [pastThreshold, gt_iff_lt, decide_eq_true_eq]
  have h1 : 7 * m + 1 ≤ 10 * (b - s) := by omega
  have h2 : (7 * m + 1 : ℚ) ≤ 10 * (b - s) := by exact_mod_cast h1
  linarith [hc.2]

/-! ## Lemmas on the chunker -/

theorem windowEnd_snap (text : Units) (m s b : Int) (h1 : s + m < text.length)
    (hb : breakPoint text (s + m) = b) (hp : pastThreshold s m b = true) :
    windowEnd text m s = b + 1 := by
  simp only [windowEnd, h1, if_true, hb, hp]

theorem windowEnd_keep (text : Units) (m s b : Int) (h1 : s + m < text.length)
    (hb : breakPoint text (s + m) = b) (hp : pastThreshold s m b = false) :
    windowEnd text m s = s + m := by
  simp only [windowEnd, h1, if_true, hb, hp]
  rfl

theorem windowEnd_last (text : Units) (m s : Int) (h1 : ¬ s + m < text.length) :
    windowEnd text m s = s + m := by
  simp only [windowEnd, h1, if_false]

theorem pastThreshold_eq_false (s m b : Int) (hs : |(s : ℚ)| ≤ 2 ^ 40)
    (hm : |(m : ℚ)| ≤ 2 ^ 40) (h : 10 * (b - s) < 7 * m) : pastThreshold s m b = false := by
  cases hp : pastThreshold s m b with
  | false => rfl
  | true =>
    have := le_of_pastThreshold s m b hs hm hp
    omega

theorem lastIndexFrom_spec (text : Units) (unit : Nat) (k : Nat) :
    lastIndexFrom text unit k = -1 ∨
      ∃ j : Nat, j ≤ k ∧ lastIndexFrom text unit k = j ∧ text.get? j = some unit := by
  induction k with
  | zero =>
    unfold lastIndexFrom
    split
    · rename_i h; exact Or.inr ⟨0, le_refl _, rfl, h⟩
    · exact Or.inl rfl
  | succ k ih =>
    unfold lastIndexFrom
    split
    · rename_i h; exact Or.inr ⟨k + 1, le_refl _, rfl, h⟩
    · rcases ih with h | ⟨j, hj, h1, h2⟩
      · exact Or.inl h
      · exact Or.inr ⟨j, Nat.le_succ_of_le hj, h1, h2⟩

theorem lastIndexOf_spec (text : Units) (unit : Nat) (position : Int) :
    lastIndexOf text unit position = -1 ∨
      ∃ j : Nat, (j : Int) ≤ max position 0 ∧ lastIndexOf text unit position = j ∧
        text.get? j = some unit := by
  rcases lastIndexFrom_spec text unit (min (max position 0) ((text.length : Int) - 1)).toNat
    with h | ⟨j, hj, h1, h2⟩
  · exact Or.inl h
  · refine Or.inr ⟨j, ?_, h1, h2⟩
    have hlen : j < text.length := by
      rcases Nat.lt_or_ge j text.length with h | h
      · exact h
      · rw [List.get?_eq_none.2 h] at h2; cases h2
    omega

/-- The break point is `-1` or the index of a full stop or newline at or before `stop`. -/
theorem breakPoint_spec (text : Units) (stop : Int) :
    breakPoint text stop = -1 ∨
      ∃ j : Nat, (j : Int) ≤ max stop 0 ∧ breakPoint text stop = j ∧
        (text.get? j = some 46 ∨ text.get? j = some 10) := by
  unfold breakPoint
  rcases lastIndexOf_spec text 46 stop with h | ⟨j, hj, h1, h2⟩ <;>
    rcases lastIndexOf_spec text 10 stop with h' | ⟨j', hj', h1', h2'⟩
  · left; simp [h, h']
  · right; exact ⟨j', hj', by simp only [h, h1']; omega, Or.inr h2'⟩
  · right; exact ⟨j, hj, by simp only [h', h1]; omega, Or.inl h2⟩
  · right
    rcases le_total (j : Int) j' with hle | hle
    · exact ⟨j', hj', by simp only [h1, h1']; omega, Or.inr h2'⟩
    · exact ⟨j, hj, by simp only [h1, h1']; omega, Or.inl h2⟩

/-- How a window that starts at a non-negative index ends: at `start + maxChunkSize`, or one
past a break point that lies at least `0.7 * maxChunkSize` past the start. -/
theorem windowEnd_cases (text : Units) (m s : Int) (hL : text.length < 2 ^ 32) (hm : 0 ≤ m)
    (hs : 0 ≤ s) :
    windowEnd text m s = s + m ∨
      (s + m < text.length ∧ windowEnd text m s = breakPoint text (s + m) + 1 ∧
        7 * m ≤ 10 * (breakPoint text (s + m) - s)) := by
  by_cases h1 : s + m < text.length
  · cases hp : pastThreshold s m (breakPoint text (s + m)) with
    | false => exact Or.inl (windowEnd_keep text m s _ h1 rfl hp)
    | true =>
      refine Or.inr ⟨h1, windowEnd_snap text m s _ h1 rfl hp, ?_⟩
      have hLi : (text.length : Int) < 2 ^ 32 := by exact_mod_cast hL
      have hsb : |(s : ℚ)| ≤ 2 ^ 40 := by
        rw [abs_of_nonneg (by exact_mod_cast hs)]
        have : s ≤ 2 ^ 40 := by omega
        exact_mod_cast this
      have hmb : |(m : ℚ)| ≤ 2 ^ 40 := by
        rw [abs_of_nonneg (by exact_mod_cast hm)]
        have : m ≤ 2 ^ 40 := by omega
        exact_mod_cast this
      exact le_of_pastThreshold s m _ hsb hmb hp
  · exact Or.inl (windowEnd_last text m s h1)

/-- With `0 ≤ overlap ≤ 0.7 * maxChunkSize` every pass of the loop moves `start` forward. -/
theorem start_lt_next (text : Units) (m overlap s : Int) (hL : text.length < 2 ^ 32)
    (hm : 1 ≤ m) (hom : 10 * overlap ≤ 7 * m) (hs : 0 ≤ s) :
    s < windowEnd text m s - overlap := by
  rcases windowEnd_cases text m s hL (by omega) hs with h | ⟨_, h, hb⟩
  · rw [h]; omega
  · rw [h]; omega

/-- The loop ends once the fuel exceeds the distance from `start` to the end of the text. -/
theorem chunkLoop_terminates (text : Units) (m overlap : Int) (hL : text.length < 2 ^ 32)
    (hm : 1 ≤ m) (hom : 10 * overlap ≤ 7 * m) :
    ∀ (fuel : Nat) (s : Int) (chunks : List Units), 0 ≤ s →
      max ((text.length : Int) - s) 0 < fuel →
      ∃ r, chunkLoop text m overlap fuel s chunks = some r := by
  intro fuel
  induction fuel with
  | zero =>
    intro s chunks hs hf
    simp at hf
  | succ fuel ih =>
    intro s chunks hs hf
    unfold chunkLoop
    by_cases h : s < text.length
    · rw [if_pos h]
      have hp := start_lt_next text m overlap s hL hm hom hs
      apply ih
      · omega
      · push_cast at hf; omega
    · rw [if_neg h]
      exact ⟨chunks, rfl⟩

/-- More fuel does not change a result. -/
theorem chunkLoop_fuel_mono (text : Units) (m overlap : Int) :
    ∀ (fuel : Nat) (s : Int) (chunks r : List Units),
      chunkLoop text m overlap fuel s chunks = some r →
      ∀ k, chunkLoop text m overlap (fuel + k) s chunks = some r := by
  intro fuel
  induction fuel with
  | zero => intro s chunks r h; simp [chunkLoop] at h
  | succ fuel ih =>
    intro s chunks r h k
    rw [Nat.add_right_comm]
    unfold chunkLoop at h ⊢
    by_cases hs : s < text.length
    · rw [if_pos hs] at h ⊢
      exact ih _ _ _ h k
    · rw [if_neg hs] at h ⊢
      exact h

theorem mem_windows (text : Units) (m overlap : Int) :
    ∀ (n : Nat) (s : Int) (w : Int × Int), w ∈ windows text m overlap n s →
      w.1 < text.length ∧ w.2 = windowEnd text m w.1 := by
  intro n
  induction n with
  | zero => intro s w hw; simp [windows] at hw
  | succ n ih =>
    intro s w hw
    unfold windows at hw
    by_cases hs : s < text.length
    · rw [if_pos hs] at hw
      rcases List.mem_cons.1 hw with rfl | hw
      · exact ⟨hs, rfl⟩
      · exact ih _ w hw
    · rw [if_neg hs] at hw
      cases hw

theorem head?_windows (text : Units) (m overlap : Int) (n : Nat) (s : Int)
    (w : Int × Int) (hw : w ∈ (windows text m overlap n s).head?) :
    w = (s, windowEnd text m s) ∧ s < text.length := by
  cases n with
  | zero => simp [windows] at hw
  | succ n =>
    unfold windows at hw
    by_cases hs : s < text.length
    · rw [if_pos hs] at hw
      simp at hw
      exact ⟨hw.symm, hs⟩
    · rw [if_neg hs] at hw
      simp at hw

/-- A relation that holds between every window with a non-negative start and its successor
holds along the whole run, when every pass moves `start` forward. -/
theorem chain_windows (text : Units) (m overlap : Int) (R : Int × Int → Int × Int → Prop)
    (hprog : ∀ s, 0 ≤ s → s < windowEnd text m s - overlap)
    (hR : ∀ s : Int, 0 ≤ s → s < text.length →
      windowEnd text m s - overlap < text.length →
      R (s, windowEnd text m s)
        (windowEnd text m s - overlap, windowEnd text m (windowEnd text m s - overlap))) :
    ∀ (n : Nat) (s : Int), 0 ≤ s → List.Chain' R (windows text m overlap n s) := by
  intro n
  induction n with
  | zero => intro s _; simp [windows]
  | succ n ih =>
    intro s hs
    unfold windows
    by_cases hlt : s < text.length
    · rw [if_pos hlt, List.chain'_cons']
      have hp := hprog s hs
      refine ⟨?_, ih _ (by omega)⟩
      intro w hw
      obtain ⟨rfl, hlt'⟩ := head?_windows text m overlap n _ w hw
      exact hR s hs hlt hlt'
    · rw [if_neg hlt]
      exact List.chain'_nil

/-- In a run where every pass moves `start` forward, every window starts at a non-negative
index. -/
theorem start_nonneg_of_mem_windows (text : Units) (m overlap : Int)
    (hprog : ∀ s, 0 ≤ s → s < windowEnd text m s - overlap) :
    ∀ (n : Nat) (s : Int), 0 ≤ s → ∀ w ∈ windows text m overlap n s, 0 ≤ w.1 := by
  intro n
  induction n with
  | zero => intro s _ w hw; simp [windows] at hw
  | succ n ih =>
    intro s hs w hw
    unfold windows at hw
    by_cases hlt : s < text.length
    · rw [if_pos hlt] at hw
      rcases List.mem_cons.1 hw with rfl | hw
      · exact hs
      · exact ih _ (by have := hprog s hs; omega) w hw
    · rw [if_neg hlt] at hw
      cases hw

theorem chain_windows_start (text : Units) (m overlap : Int) :
    ∀ (n : Nat) (s : Int),
      List.Chain' (fun w w' : Int × Int => w'.1 = w.2 - overlap) (windows text m overlap n s) := by
  intro n
  induction n with
  | zero => intro s; simp [windows]
  | succ n ih =>
    intro s
    unfold windows
    by_cases hlt : s < text.length
    · rw [if_pos hlt, List.chain'_cons']
      refine ⟨?_, ih _⟩
      intro w hw
      obtain ⟨rfl, _⟩ := head?_windows text m overlap n _ w hw
      rfl
    · rw [if_neg hlt]
      exact List.chain'_nil

/-! ## splitIntoChunks: the claims -/

/-- C13 (fails on the code): with `maxChunkSize = 4` and `overlap = 1` the text `abcd.efgh`
is cut into `abcd.`, `.efg`, `gh`; the first chunk has 5 code units, because the backward
search for the full stop starts at index `end` itself and the cut is one past it. -/
theorem splitIntoChunks_long_chunk :
    splitIntoChunks 4 (utf16 "abcd.efgh".toList) 4 1
        = some [utf16 "abcd.".toList, utf16 ".efg".toList, utf16 "gh".toList] ∧
      (utf16 "abcd.".toList).length = 5 := by
  have hw0 : windowEnd (utf16 "abcd.efgh".toList) 4 0 = 5 :=
    windowEnd_snap _ 4 0 4 (by decide) (by decide)
      (pastThreshold_of_lt 0 4 4 (by norm_num) (by norm_num) (by decide))
  have hw1 : windowEnd (utf16 "abcd.efgh".toList) 4 4 = 8 :=
    windowEnd_keep _ 4 4 4 (by decide) (by decide)
      (pastThreshold_eq_false 4 4 4 (by norm_num) (by norm_num) (by decide))
  have hw2 : windowEnd (utf16 "abcd.efgh".toList) 4 7 = 11 :=
    windowEnd_last _ 4 7 (by decide)
  refine ⟨?_, by decide⟩
  have hloop : chunkLoop (utf16 "abcd.efgh".toList) 4 1 4 0 []
      = some [utf16 "abcd.".toList, utf16 ".efg".toList, utf16 "gh".toList] := by
    rw [chunkLoop, if_pos (by decide), hw0]
    rw [show (5 : Int) - 1 = 4 from rfl, chunkLoop, if_pos (by decide), hw1]
    rw [show (8 : Int) - 1 = 7 from rfl, chunkLoop, if_pos (by decide), hw2]
    rw [show (11 : Int) - 1 = 10 from rfl, chunkLoop, if_neg (by decide)]
    decide
  rw [splitIntoChunks, if_neg (by decide), hloop]
  decide

/-- C14 (as stated, fails on the code): with `maxChunkSize = 20` and `overlap = 19`, on a text
of 15 letters, a full stop and 10 letters, the first window is `(0, 16)` and the second is
`(-3, 16)`; the first ends inside the text, and the two share 16 positions, not 19. -/
theorem windows_share_counterexample :
    windows (List.replicate 15 97 ++ [46] ++ List.replicate 10 98) 20 19 2 0
        = [(0, 16), (-3, 16)] ∧
      (16 : Int) ≤ (List.replicate 15 97 ++ [46] ++ List.replicate 10 98 : Units).length ∧
      sharedCount (List.replicate 15 97 ++ [46] ++ List.replicate 10 98) (0, 16) (-3, 16)
        = 16 := by
  have hw0 : windowEnd (List.replicate 15 97 ++ [46] ++ List.replicate 10 98) 20 0 = 16 :=
    windowEnd_snap _ 20 0 15 (by decide) (by decide)
      (pastThreshold_of_lt 0 20 15 (by norm_num) (by norm_num) (by decide))
  have hw1 : windowEnd (List.replicate 15 97 ++ [46] ++ List.replicate 10 98) 20 (-3) = 16 :=
    windowEnd_snap _ 20 (-3) 15 (by decide) (by decide)
      (pastThreshold_of_lt (-3) 20 15 (by norm_num) (by norm_num) (by decide))
  refine ⟨?_, by decide, by decide⟩
  rw [windows, if_pos (by decide), hw0, show (16 : Int) - 19 = -3 from rfl, windows,
    if_pos (by decide), hw1]
  rfl

/-- C14 (amended): in every run the next window starts at the end of the previous one less
`overlap`; and for a text of fewer than `2 ^ 32` code units, `maxChunkSize ≥ 1` and
`0 ≤ overlap ≤ 0.7 * maxChunkSize`, two consecutive windows of which the first ends inside the
text share exactly `overlap` positions. -/
theorem windows_share (text : Units) (m overlap : Int) (n : Nat) :
    List.Chain' (fun w w' : Int × Int => w'.1 = w.2 - overlap) (windows text m overlap n 0) ∧
      (text.length < 2 ^ 32 → 1 ≤ m → 0 ≤ overlap → 10 * overlap ≤ 7 * m →
        List.Chain' (fun w w' : Int × Int =>
            w.2 ≤ text.length → sharedCount text w w' = overlap)
          (windows text m overlap n 0)) := by
  refine ⟨chain_windows_start text m overlap n 0, ?_⟩
  intro hL hm ho hom
  apply chain_windows text m overlap _
    (fun s hs => start_lt_next text m overlap s hL hm hom hs) _ n 0 (le_refl _)
  intro s hs hlt hlt' he
  have hp := start_lt_next text m overlap s hL hm hom hs
  have hp' := start_lt_next text m overlap (windowEnd text m s - overlap) hL hm hom (by omega)
  have hle : windowEnd text m s ≤ windowEnd text m (windowEnd text m s - overlap) := by
    rcases windowEnd_cases text m (windowEnd text m s - overlap) hL (by omega) (by omega)
      with h | ⟨_, h, hb⟩
    · rw [h]; omega
    · rw [h]; omega
  simp only [sharedCount]
  omega

/-- Witness for `windows_share`: `maxChunkSize = 10`, `overlap = 3`, three passes. -/
theorem windows_share_witness :
    List.Chain' (fun w w' : Int × Int =>
        w.2 ≤ (utf16 "One two. Three four five six seven.".toList).length →
          sharedCount (utf16 "One two. Three four five six seven.".toList) w w' = 3)
      (windows (utf16 "One two. Three four five six seven.".toList) 10 3 3 0) :=
  (windows_share (utf16 "One two. Three four five six seven.".toList) 10 3 3).2 (by decide)
    (by decide) (by decide) (by decide)

/-- C15 (as stated, fails on the code).  With `maxChunkSize = 90` the double product
`90 * 0.7` is `62.99999999999999`, so a full stop at index 63 passes the test: on 63 letters,
a full stop and 40 letters the first window is `(0, 64)`, which ends inside the text, is not
90 long, and ends after a full stop exactly `0.7 * 90 = 63` past its start, not more.  With
`maxChunkSize = 4` and `overlap = 100` on 8 letters the second window is `(-96, 0)`, which is
not 4 long and ends after no character at all. -/
theorem window_rule_counterexample :
    windows (List.replicate 63 97 ++ [46] ++ List.replicate 40 98) 90 20 1 0 = [(0, 64)] ∧
      (64 : Int) < (List.replicate 63 97 ++ [46] ++ List.replicate 40 98 : Units).length ∧
      (List.replicate 63 97 ++ [46] ++ List.replicate 40 98 : Units).get? 63 = some 46 ∧
      ¬ (7 * 90 < 10 * ((63 : Int) - 0)) ∧
      windows (List.replicate 8 97) 4 100 2 0 = [(0, 4), (-96, 0)] ∧
      (0 : Int) < (List.replicate 8 97 : Units).length := by
  have hw0 : windowEnd (List.replicate 63 97 ++ [46] ++ List.replicate 40 98) 90 0 = 64 :=
    windowEnd_snap _ 90 0 63 (by decide) (by decide) pastThreshold_ninety
  have hw1 : windowEnd (List.replicate 8 97) 4 0 = 4 :=
    windowEnd_keep _ 4 0 (-1) (by decide) (by decide)
      (pastThreshold_eq_false 0 4 (-1) (by norm_num) (by norm_num) (by decide))
  have hw2 : windowEnd (List.replicate 8 97) 4 (-96) = 0 :=
    windowEnd_snap _ 4 (-96) (-1) (by decide) (by decide)
      (pastThreshold_of_lt (-96) 4 (-1) (by norm_num) (by norm_num) (by decide))
  refine ⟨?_, by decide, by decide, by decide, ?_, by decide⟩
  · rw [windows, if_pos (by decide), hw0]
    rfl
  · rw [windows, if_pos (by decide), hw1, show (4 : Int) - 100 = -96 from rfl, windows,
      if_pos (by decide), hw2]
    rfl

/-- C15 (amended): for a text of fewer than `2 ^ 32` code units and `maxChunkSize ≥ 1`, every
window of a run that starts at a non-negative index and ends before the end of the text either
spans exactly `maxChunkSize` positions or ends immediately after a full stop or newline that
lies at least `0.7 * maxChunkSize` positions past the window's start; and with
`overlap ≤ 0.7 * maxChunkSize` every window starts at a non-negative index. -/
theorem window_rule (text : Units) (m overlap : Int) (hL : text.length < 2 ^ 32)
    (hm : 1 ≤ m) (n : Nat) :
    (∀ w ∈ windows text m overlap n 0, 0 ≤ w.1 → w.2 < text.length →
        w.2 - w.1 = m ∨
          (1 ≤ w.2 ∧
            (text.get? (w.2 - 1).toNat = some 46 ∨ text.get? (w.2 - 1).toNat = some 10) ∧
            7 * m ≤ 10 * (w.2 - 1 - w.1))) ∧
      (10 * overlap ≤ 7 * m → ∀ w ∈ windows text m overlap n 0, 0 ≤ w.1) := by
  constructor
  · intro w hw hs he
    obtain ⟨_, hw2⟩ := mem_windows text m overlap n 0 w hw
    rcases windowEnd_cases text m w.1 hL (by omega) hs with h | ⟨_, h, hb⟩
    · left; rw [hw2, h]; omega
    · right
      rcases breakPoint_spec text (w.1 + m) with hbp | ⟨j, _, hj, hget⟩
      · rw [hbp] at hb; omega
      · rw [hw2, h, hj]
        refine ⟨by omega, ?_, by rw [hj] at hb; omega⟩
        simpa using hget
  · intro hom
    exact start_nonneg_of_mem_windows text m overlap
      (fun s hs => start_lt_next text m overlap s hL hm hom hs) n 0 (le_refl _)

/-- Witness for `window_rule`: `maxChunkSize = 10`, `overlap = 3`, three passes. -/
theorem window_rule_witness :
    (∀ w ∈ windows (utf16 "One two. Three four five six seven.".toList) 10 3 3 0, 0 ≤ w.1 →
        w.2 < (utf16 "One two. Three four five six seven.".toList).length →
        w.2 - w.1 = 10 ∨
          (1 ≤ w.2 ∧
            ((utf16 "One two. Three four five six seven.".toList).get? (w.2 - 1).toNat
                = some 46 ∨
              (utf16 "One two. Three four five six seven.".toList).get? (w.2 - 1).toNat
                = some 10) ∧
            7 * 10 ≤ 10 * (w.2 - 1 - w.1))) ∧
      (10 * 3 ≤ 7 * (10 : Int) →
        ∀ w ∈ windows (utf16 "One two. Three four five six seven.".toList) 10 3 3 0, 0 ≤ w.1) :=
  window_rule (utf16 "One two. Three four five six seven.".toList) 10 3 (by decide)
    (by decide) 3

/-- C19: for a text of fewer than `2 ^ 32` code units, `maxChunkSize ≥ 1` and
`overlap ≤ 0.7 * maxChunkSize` (in particular `0 ≤ overlap ≤ 0.7 * maxChunkSize`), every pass
of the loop moves `start` strictly forward, so the starts of the windows increase strictly,
and the loop ends within `text.length + 1` tests of its condition. -/
theorem chunkLoop_start_increases (text : Units) (m overlap : Int) (hL : text.length < 2 ^ 32)
    (hm : 1 ≤ m) (hom : 10 * overlap ≤ 7 * m) :
    (∀ s : Int, 0 ≤ s → s < text.length → s < windowEnd text m s - overlap) ∧
      (∀ n : Nat, List.Chain' (fun w w' : Int × Int => w.1 < w'.1)
        (windows text m overlap n 0)) ∧
      ∃ chunks, chunkLoop text m overlap (text.length + 1) 0 [] = some chunks := by
  have hprog : ∀ s : Int, 0 ≤ s → s < windowEnd text m s - overlap := fun s hs =>
    start_lt_next text m overlap s hL hm hom hs
  refine ⟨fun s hs _ => hprog s hs, ?_, ?_⟩
  · intro n
    apply chain_windows text m overlap _ hprog _ n 0 (le_refl _)
    intro s hs _ _
    exact hprog s hs
  · apply chunkLoop_terminates text m overlap hL hm hom _ 0 [] (le_refl _)
    push_cast
    omega

/-- Witness for `chunkLoop_start_increases`: `maxChunkSize = 10` and `overlap = 7`. -/
theorem chunkLoop_start_increases_witness :
    (∀ s : Int, 0 ≤ s → s < (utf16 "One two. Three four five six seven.".toList).length →
        s < windowEnd (utf16 "One two. Three four five six seven.".toList) 10 s - 7) ∧
      (∀ n : Nat, List.Chain' (fun w w' : Int × Int => w.1 < w'.1)
        (windows (utf16 "One two. Three four five six seven.".toList) 10 7 n 0)) ∧
      ∃ chunks, chunkLoop (utf16 "One two. Three four five six seven.".toList) 10 7
        ((utf16 "One two. Three four five six seven.".toList).length + 1) 0 [] = some chunks :=
  chunkLoop_start_increases (utf16 "One two. Three four five six seven.".toList) 10 7
    (by decide) (by decide) (by decide)

/-- C20 (as stated, fails on the code): with `maxChunkSize = 10` and `overlap = 9`, on 8
letters, a full stop and 12 letters, the first window is cut after the full stop at index 8,
so the next `start` is `9 - 9 = 0` again: the loop never ends, whatever the fuel. -/
theorem splitIntoChunks_never_returns :
    windowEnd (List.replicate 8 97 ++ [46] ++ List.replicate 12 98) 10 0 - 9 = 0 ∧
      ¬ ∃ (fuel : Nat) (chunks : List Units),
        splitIntoChunks fuel (List.replicate 8 97 ++ [46] ++ List.replicate 12 98) 10 9
          = some chunks := by
  have hw0 : windowEnd (List.replicate 8 97 ++ [46] ++ List.replicate 12 98) 10 0 = 9 :=
    windowEnd_snap _ 10 0 8 (by decide) (by decide)
      (pastThreshold_of_lt 0 10 8 (by norm_num) (by norm_num) (by decide))
  have hloop : ∀ (fuel : Nat) (chunks : List Units),
      chunkLoop (List.replicate 8 97 ++ [46] ++ List.replicate 12 98) 10 9 fuel 0 chunks
        = none := by
    intro fuel
    induction fuel with
    | zero => intro chunks; rfl
    | succ fuel ih =>
      intro chunks
      rw [chunkLoop, if_pos (by decide), hw0, show (9 : Int) - 9 = 0 from rfl]
      exact ih _
  refine ⟨by rw [hw0]; rfl, ?_⟩
  rintro ⟨fuel, chunks, h⟩
  rw [splitIntoChunks, if_neg (by decide), hloop] at h
  cases h

/-- C20 (amended): for every text of fewer than `2 ^ 32` code units, `maxChunkSize ≥ 1` and
`overlap ≤ 0.7 * maxChunkSize`, `splitIntoChunks` returns: there is one list of chunks that it
gives for every fuel above the length of the text. -/
theorem splitIntoChunks_returns (text : Units) (m overlap : Int) (hL : text.length < 2 ^ 32)
    (hm : 1 ≤ m) (hom : 10 * overlap ≤ 7 * m) :
    ∃ chunks, ∀ fuel : Nat, text.length < fuel →
      splitIntoChunks fuel text m overlap = some chunks := by
  by_cases hshort : text = [] ∨ (text.length : Int) ≤ m
  · exact ⟨[text], fun fuel _ => by rw [splitIntoChunks, if_pos hshort]⟩
  · obtain ⟨r, hr⟩ := chunkLoop_terminates text m overlap hL hm hom (text.length + 1) 0 []
      (le_refl _) (by push_cast; omega)
    refine ⟨r.filter fun chunk => decide (chunk.length > 0), ?_⟩
    intro fuel hf
    obtain ⟨k, rfl⟩ : ∃ k, fuel = text.length + 1 + k := ⟨fuel - (text.length + 1), by omega⟩
    rw [splitIntoChunks, if_neg hshort,
      chunkLoop_fuel_mono text m overlap _ 0 [] r hr k]
    rfl

/-- Witness for `splitIntoChunks_returns`: the sample text of 35 code units with
`maxChunkSize = 10` and `overlap = 7`, the largest overlap allowed.  The text is longer than
`maxChunkSize`, so the early return does not fire and the result comes from the loop: with no
fuel there is none. -/
theorem splitIntoChunks_returns_witness :
    ¬ (sampleText = [] ∨ (sampleText.length : Int) ≤ 10) ∧
      splitIntoChunks 0 sampleText 10 7 = none ∧
      ∃ chunks, ∀ fuel : Nat, sampleText.length < fuel →
        splitIntoChunks fuel sampleText 10 7 = some chunks :=
  ⟨by decide, by rw [splitIntoChunks, if_neg (by decide)]; rfl,
    splitIntoChunks_returns sampleText 10 7 (by decide) (by decide) (by decide)⟩

/-! ## Lemmas on `trim` -/

theorem mem_dropWhile_of_not {α : Type} (p : α → Bool) (l : List α) (x : α) (hx : x ∈ l)
    (hp : p x = false) : x ∈ l.dropWhile p := by
  rw [← List.takeWhile_append_dropWhile p l, List.mem_append] at hx
  rcases hx with h | h
  · have := List.mem_takeWhile_imp h
    rw [hp] at this
    cases this
  · exact h

theorem mem_rdropWhile_of_not {α : Type} (p : α → Bool) (l : List α) (x : α) (hx : x ∈ l)
    (hp : p x = false) : x ∈ l.rdropWhile p := by
  rw [List.rdropWhile, List.mem_reverse]
  exact mem_dropWhile_of_not p _ x (List.mem_reverse.2 hx) hp

theorem dropWhile_rdropWhile_dropWhile {α : Type} (p : α → Bool) (l : List α) :
    ((l.dropWhile p).rdropWhile p).dropWhile p = (l.dropWhile p).rdropWhile p := by
  obtain ⟨t, ht⟩ := List.rdropWhile_prefix p (l := l.dropWhile p)
  cases hr : (l.dropWhile p).rdropWhile p with
  | nil => rfl
  | cons a as =>
    rw [hr] at ht
    have hne : l.dropWhile p ≠ [] := by rw [← ht]; simp
    have hhead := List.head_dropWhile_not p l hne
    have ha : (l.dropWhile p).head hne = a := by
      have : l.dropWhile p = a :: (as ++ t) := by rw [← ht]; rfl
      simp [this]
    rw [ha] at hhead
    rw [List.dropWhile_cons_of_neg (by simpa using hhead)]

/-- On strings: a character outside the class survives `trim`. -/
theorem mem_trim (s : JSString) (c : Char) (hc : c ∈ s) (hw : isWhiteSpace c = false) :
    c ∈ trim s :=
  mem_rdropWhile_of_not isWhiteSpace _ c (mem_dropWhile_of_not isWhiteSpace s c hc hw) hw

/-- `trim` is idempotent. -/
theorem trim_trim (s : JSString) : trim (trim s) = trim s := by
  have h1 : trim s = (s.dropWhile isWhiteSpace).rdropWhile isWhiteSpace := rfl
  have h2 : trim (trim s) = ((trim s).dropWhile isWhiteSpace).rdropWhile isWhiteSpace := rfl
  rw [h2, h1, dropWhile_rdropWhile_dropWhile, List.rdropWhile_idempotent]

/-- On code units: a unit outside the class survives `trimUnits`. -/
theorem mem_trimUnits (s : Units) (u : Nat) (hu : u ∈ s) (hw : isWhiteSpaceUnit u = false) :
    u ∈ trimUnits s :=
  mem_rdropWhile_of_not isWhiteSpaceUnit _ u (mem_dropWhile_of_not isWhiteSpaceUnit s u hu hw) hw

/-- `trimUnits` is idempotent. -/
theorem trimUnits_trimUnits (s : Units) : trimUnits (trimUnits s) = trimUnits s := by
  have h1 : trimUnits s = (s.dropWhile isWhiteSpaceUnit).rdropWhile isWhiteSpaceUnit := rfl
  have h2 : trimUnits (trimUnits s)
      = ((trimUnits s).dropWhile isWhiteSpaceUnit).rdropWhile isWhiteSpaceUnit := rfl
  rw [h2, h1, dropWhile_rdropWhile_dropWhile, List.rdropWhile_idempotent]

theorem jsLength_pos_iff (s : JSString) : 0 < jsLength s ↔ s ≠ [] := by
  cases s with
  | nil => simp [jsLength]
  | cons c cs =>
    simp only [jsLength, List.map_cons, List.sum_cons, ne_eq, reduceCtorEq, not_false_eq_true,
      iff_true]
    split <;> omega

/-! ## splitIntoChunks: coverage and the shape of the chunks -/

theorem windows_eq_nil (text : Units) (m overlap : Int) (n : Nat) (s : Int)
    (h : ¬ s < text.length) : windows text m overlap n s = [] := by
  cases n with
  | zero => rfl
  | succ n => rw [windows, if_neg h]

/-- What the loop returns is the chunks it started with followed by the chunk of each window
of the run. -/
theorem chunkLoop_eq_windows (text : Units) (m overlap : Int) :
    ∀ (fuel : Nat) (s : Int) (chunks r : List Units),
      chunkLoop text m overlap fuel s chunks = some r →
      r = chunks ++ (windows text m overlap fuel s).map (chunkOf text) := by
  intro fuel
  induction fuel with
  | zero => intro s chunks r h; simp [chunkLoop] at h
  | succ fuel ih =>
    intro s chunks r h
    unfold chunkLoop at h
    unfold windows
    by_cases hs : s < text.length
    · rw [if_pos hs] at h ⊢
      rw [ih _ _ _ h]
      simp [chunkOf]
    · rw [if_neg hs] at h ⊢
      cases h
      simp

/-- The last window of a run that ends reaches the end of the text, even less `overlap`. -/
theorem getLast_windows (text : Units) (m overlap : Int) :
    ∀ (fuel : Nat) (s : Int) (chunks r : List Units),
      chunkLoop text m overlap fuel s chunks = some r → s < text.length →
      ∃ w, (windows text m overlap fuel s).getLast? = some w ∧
        (text.length : Int) ≤ w.2 - overlap := by
  intro fuel
  induction fuel with
  | zero => intro s chunks r h; simp [chunkLoop] at h
  | succ fuel ih =>
    intro s chunks r h hs
    unfold chunkLoop at h
    unfold windows
    rw [if_pos hs] at h ⊢
    by_cases hs' : windowEnd text m s - overlap < text.length
    · obtain ⟨w, hw, hle⟩ := ih _ _ _ h hs'
      refine ⟨w, ?_, hle⟩
      cases hwin : windows text m overlap fuel (windowEnd text m s - overlap) with
      | nil => rw [hwin] at hw; cases hw
      | cons x xs =>
        rw [hwin] at hw
        rw [List.getLast?_cons_cons]
        exact hw
    · rw [windows_eq_nil text m overlap fuel _ hs']
      exact ⟨_, rfl, by simpa using hs'⟩

/-- In a run that ends and in which every pass moves `start` forward, every position from
`start` on lies in some window. -/
theorem covered_by_windows (text : Units) (m overlap : Int) (ho : 0 ≤ overlap)
    (hprog : ∀ s, 0 ≤ s → s < windowEnd text m s - overlap) :
    ∀ (fuel : Nat) (s : Int) (chunks r : List Units),
      chunkLoop text m overlap fuel s chunks = some r → 0 ≤ s →
      ∀ p : Int, s ≤ p → p < text.length →
        ∃ w ∈ windows text m overlap fuel s, w.1 ≤ p ∧ p < w.2 := by
  intro fuel
  induction fuel with
  | zero => intro s chunks r h; simp [chunkLoop] at h
  | succ fuel ih =>
    intro s chunks r h hs p hsp hp
    unfold chunkLoop at h
    unfold windows
    have hlt : s < text.length := by omega
    rw [if_pos hlt] at h ⊢
    by_cases hpe : p < windowEnd text m s
    · exact ⟨_, List.mem_cons_self _ _, hsp, hpe⟩
    · have hpr := hprog s hs
      obtain ⟨w, hw, h1, h2⟩ := ih _ _ _ h (by omega) p (by omega) hp
      exact ⟨w, List.mem_cons_of_mem _ hw, h1, h2⟩

/-- The unit at a position inside a window is in the window's substring. -/
theorem mem_substring (text : Units) (s e : Int) (p : Nat) (u : Nat) (hs : 0 ≤ s)
    (hsp : s ≤ p) (hpe : (p : Int) < e) (hu : text.get? p = some u) :
    u ∈ substring text s e := by
  have hp : p < text.length := by
    rcases Nat.lt_or_ge p text.length with h | h
    · exact h
    · rw [List.get?_eq_none.2 h] at hu; cases hu
  obtain ⟨a, rfl⟩ := Int.eq_ofNat_of_zero_le hs
  have hap : a ≤ p := by exact_mod_cast hsp
  unfold substring
  have h1 : min (max (a : Int) 0) (text.length : Int) = a := by omega
  have h2 : (p : Int) + 1 ≤ min (max e 0) (text.length : Int) := by omega
  simp only [h1]
  have h3 : min (a : Int) (min (max e 0) text.length) = a := by omega
  have h4 : max (a : Int) (min (max e 0) text.length) = min (max e 0) text.length := by omega
  rw [h3, h4, Int.toNat_ofNat]
  rw [List.mem_iff_getElem?]
  refine ⟨p - a, ?_⟩
  rw [List.getElem?_take_of_lt (by omega), List.getElem?_drop]
  rw [show a + (p - a) = p by omega, ← List.get?_eq_getElem?]
  exact hu

/-- C21 (as stated, fails on the code): with `maxChunkSize = 0` and `overlap = 0`, which
satisfy `0 ≤ overlap ≤ 0.7 * maxChunkSize`, the one-letter text `a` is longer than
`maxChunkSize`, every window is the empty window `(0, 0)`, and the loop never ends: nothing is
returned. -/
theorem windows_cover_counterexample :
    windows [97] 0 0 3 0 = [(0, 0), (0, 0), (0, 0)] ∧
      ¬ ∃ (fuel : Nat) (chunks : List Units), splitIntoChunks fuel [97] 0 0 = some chunks := by
  have hw0 : windowEnd [97] 0 0 = 0 :=
    windowEnd_keep _ 0 0 (-1) (by decide) (by decide)
      (pastThreshold_eq_false 0 0 (-1) (by norm_num) (by norm_num) (by decide))
  have hloop : ∀ (fuel : Nat) (chunks : List Units), chunkLoop [97] 0 0 fuel 0 chunks = none := by
    intro fuel
    induction fuel with
    | zero => intro chunks; rfl
    | succ fuel ih =>
      intro chunks
      rw [chunkLoop, if_pos (by decide), hw0, show (0 : Int) - 0 = 0 from rfl]
      exact ih _
  constructor
  · rw [windows, if_pos (by decide), hw0, show (0 : Int) - 0 = 0 from rfl, windows,
      if_pos (by decide), hw0, show (0 : Int) - 0 = 0 from rfl, windows, if_pos (by decide),
      hw0]
    rfl
  · rintro ⟨fuel, chunks, h⟩
    rw [splitIntoChunks, if_neg (by decide), hloop] at h
    cases h

/-- C21 (amended): for a text of fewer than `2 ^ 32` code units that is longer than
`maxChunkSize`, with `maxChunkSize ≥ 1` and `0 ≤ overlap ≤ 0.7 * maxChunkSize`,
`splitIntoChunks` returns, and the windows of its run cover the text: the first starts at
index 0, each next one starts no later than the one before ends, the last one reaches the end
of the text, the chunks returned are the non-empty chunks of these windows, and every unit of
the text that is not whitespace lies in a window whose chunk is returned and holds it. -/
theorem windows_cover (text : Units) (m overlap : Int) (hL : text.length < 2 ^ 32)
    (hm : 1 ≤ m) (hlong : m < text.length) (ho : 0 ≤ overlap) (hom : 10 * overlap ≤ 7 * m) :
    ∃ chunks : List Units,
      (∀ fuel : Nat, text.length < fuel → splitIntoChunks fuel text m overlap = some chunks) ∧
      (windows text m overlap (text.length + 1) 0).head? = some (0, windowEnd text m 0) ∧
      List.Chain' (fun w w' : Int × Int => w'.1 ≤ w.2)
        (windows text m overlap (text.length + 1) 0) ∧
      (∃ w, (windows text m overlap (text.length + 1) 0).getLast? = some w ∧
        (text.length : Int) ≤ w.2) ∧
      chunks = ((windows text m overlap (text.length + 1) 0).map (chunkOf text)).filter
        (fun chunk => decide (chunk.length > 0)) ∧
      ∀ (p u : Nat), text.get? p = some u → isWhiteSpaceUnit u = false →
        ∃ w ∈ windows text m overlap (text.length + 1) 0,
          w.1 ≤ (p : Int) ∧ (p : Int) < w.2 ∧ chunkOf text w ∈ chunks ∧ u ∈ chunkOf text w := by
  have hprog : ∀ s : Int, 0 ≤ s → s < windowEnd text m s - overlap := fun s hs =>
    start_lt_next text m overlap s hL hm hom hs
  have hpos : (0 : Int) < text.length := by omega
  obtain ⟨r, hr⟩ := chunkLoop_terminates text m overlap hL hm hom (text.length + 1) 0 []
    (le_refl _) (by push_cast; omega)
  have hwin := chunkLoop_eq_windows text m overlap _ _ _ _ hr
  rw [List.nil_append] at hwin
  have hshort : ¬ (text = [] ∨ (text.length : Int) ≤ m) := by
    rintro (h | h)
    · rw [h] at hpos; simp at hpos
    · omega
  refine ⟨r.filter fun chunk => decide (chunk.length > 0), ?_, ?_, ?_, ?_, by rw [hwin], ?_⟩
  · intro fuel hf
    obtain ⟨k, rfl⟩ : ∃ k, fuel = text.length + 1 + k := ⟨fuel - (text.length + 1), by omega⟩
    rw [splitIntoChunks, if_neg hshort, chunkLoop_fuel_mono text m overlap _ 0 [] r hr k]
    rfl
  · rw [windows, if_pos hpos]
    rfl
  · exact (chain_windows_start text m overlap _ 0).imp (fun {a b} h => by rw [h]; omega)
  · obtain ⟨w, hw, hle⟩ := getLast_windows text m overlap _ _ _ _ hr hpos
    exact ⟨w, hw, by omega⟩
  · intro p u hu hws
    have hp : p < text.length := by
      rcases Nat.lt_or_ge p text.length with h | h
      · exact h
      · rw [List.get?_eq_none.2 h] at hu; cases hu
    obtain ⟨w, hw, h1, h2⟩ := covered_by_windows text m overlap ho hprog _ _ _ _ hr (le_refl _)
      (p : Int) (by omega) (by exact_mod_cast hp)
    have hw0 := start_nonneg_of_mem_windows text m overlap hprog _ 0 (le_refl _) w hw
    have hmem : u ∈ chunkOf text w :=
      mem_trimUnits _ u (mem_substring text w.1 w.2 p u hw0 h1 h2 hu) hws
    refine ⟨w, hw, h1, h2, ?_, hmem⟩
    rw [List.mem_filter, hwin]
    refine ⟨List.mem_map.2 ⟨w, hw, rfl⟩, ?_⟩
    simp only [gt_iff_lt, decide_eq_true_eq]
    exact List.length_pos_of_mem hmem

/-- Witness for `windows_cover`: the sample text with `maxChunkSize = 10` and `overlap = 3`. -/
theorem windows_cover_witness :
    ∃ chunks : List Units,
      (∀ fuel : Nat, sampleText.length < fuel →
        splitIntoChunks fuel sampleText 10 3 = some chunks) ∧
      (windows sampleText 10 3 (sampleText.length + 1) 0).head?
        = some (0, windowEnd sampleText 10 0) ∧
      List.Chain' (fun w w' : Int × Int => w'.1 ≤ w.2)
        (windows sampleText 10 3 (sampleText.length + 1) 0) ∧
      (∃ w, (windows sampleText 10 3 (sampleText.length + 1) 0).getLast? = some w ∧
        (sampleText.length : Int) ≤ w.2) ∧
      chunks = ((windows sampleText 10 3 (sampleText.length + 1) 0).map
          (chunkOf sampleText)).filter (fun chunk => decide (chunk.length > 0)) ∧
      ∀ (p u : Nat), sampleText.get? p = some u → isWhiteSpaceUnit u = false →
        ∃ w ∈ windows sampleText 10 3 (sampleText.length + 1) 0,
          w.1 ≤ (p : Int) ∧ (p : Int) < w.2 ∧ chunkOf sampleText w ∈ chunks ∧
            u ∈ chunkOf sampleText w :=
  windows_cover sampleText 10 3 (by decide) (by decide) (by decide) (by decide) (by decide)

/-- On the path through the loop every chunk returned is non-empty and is its own trim: it
neither begins nor ends with whitespace. -/
theorem chunks_trimmed_of_long (fuel : Nat) (text : Units) (m overlap : Int)
    (chunks : List Units) (hlong : ¬ (text = [] ∨ (text.length : Int) ≤ m))
    (h : splitIntoChunks fuel text m overlap = some chunks) :
    ∀ chunk ∈ chunks, chunk ≠ [] ∧ trimUnits chunk = chunk := by
  rw [splitIntoChunks, if_neg hlong] at h
  cases hr : chunkLoop text m overlap fuel 0 [] with
  | none => rw [hr] at h; cases h
  | some r =>
    rw [hr] at h
    simp only [Option.map_some', Option.some.injEq] at h
    subst h
    intro chunk hc
    obtain ⟨hmem, hlen⟩ := List.mem_filter.1 hc
    rw [chunkLoop_eq_windows text m overlap _ _ _ _ hr, List.nil_append] at hmem
    obtain ⟨w, _, rfl⟩ := List.mem_map.1 hmem
    refine ⟨?_, trimUnits_trimUnits _⟩
    intro h0
    rw [h0] at hlen
    simp at hlen

/-- C22 (fails on the code): for a text that is empty or not longer than `maxChunkSize` the
early return gives the text itself as the only chunk, neither trimmed nor dropped when empty:
the empty string gives one empty chunk, and `  hi  ` gives the chunk `  hi  `, whose trim is
`hi`.  The loop path trims every chunk and drops the empty ones. -/
theorem splitIntoChunks_short_text :
    splitIntoChunks 0 (utf16 "".toList) 1000 200 = some [[]] ∧
      splitIntoChunks 0 (utf16 "  hi  ".toList) 1000 200 = some [utf16 "  hi  ".toList] ∧
      trimUnits (utf16 "  hi  ".toList) = utf16 "hi".toList ∧
      utf16 "  hi  ".toList ≠ utf16 "hi".toList := by
  refine ⟨by rfl, by rfl, by decide, by decide⟩

/-! ## calculateSimilarity: the score is a number -/

/-- C23: for all strings the array `union` of `calculateSimilarity` is not empty, so the divisor
is not zero and the score is a non-negative rational number; and on such scores the comparator
of `search` is the usual total order: it is positive exactly when the first score is the
smaller, so of two results one is never after the other, and "not after" is transitive and
holds both ways only between equal scores. -/
theorem calculateSimilarity_well_defined (toLowerCase : JSString → JSString) (q d : JSString) :
    union toLowerCase q d ≠ [] ∧
      ((union toLowerCase q d).length : ℚ) ≠ 0 ∧
      0 ≤ calculateSimilarity toLowerCase q d ∧
      (∀ a b : SearchResult, bySimilarity a b = true ↔ a.similarity < b.similarity) ∧
      (∀ a b : SearchResult, bySimilarity a b = false ∨ bySimilarity b a = false) ∧
      (∀ a b c : SearchResult, bySimilarity a b = false → bySimilarity b c = false →
        bySimilarity a c = false) ∧
      (∀ a b : SearchResult, bySimilarity a b = false → bySimilarity b a = false →
        a.similarity = b.similarity) := by
  have hne := union_ne_nil toLowerCase q d
  have hf : ∀ a b : SearchResult, bySimilarity a b = false ↔ b.similarity ≤ a.similarity := by
    intro a b
    simp [bySimilarity]
  refine ⟨hne, ?_, ?_, ordersBy_bySimilarity, ?_, ?_, ?_⟩
  · exact_mod_cast fun h => hne (List.length_eq_zero.1 h)
  · rw [calculateSimilarity]
    exact div_nonneg (Nat.cast_nonneg _) (Nat.cast_nonneg _)
  · intro a b
    rcases le_total a.similarity b.similarity with h | h
    · exact Or.inr ((hf b a).2 h)
    · exact Or.inl ((hf a b).2 h)
  · intro a b c hab hbc
    exact (hf a c).2 (le_trans ((hf b c).1 hbc) ((hf a b).1 hab))
  · intro a b hab hba
    exact le_antisymm ((hf b a).1 hba) ((hf a b).1 hab)

/-! ## answerQuestion: question words with punctuation -/

theorem asciiLower_no_sentenceEnd (s : JSString)
    (h : ∀ c ∈ s, isSentenceEnd c = false) : ∀ c ∈ asciiLower s, isSentenceEnd c = false := by
  intro c hc
  obtain ⟨x, hx, rfl⟩ := List.mem_map.1 hc
  have hx' := h x hx
  unfold asciiLowerChar
  split
  · rename_i hr
    obtain ⟨h1, h2⟩ := hr
    generalize x.toNat = n at h1 h2
    interval_cases n <;> decide
  · exact hx'

theorem any_filter_of_imp {α : Type} (l : List α) (f g : α → Bool)
    (h : ∀ x ∈ l, f x = true → g x = true) : (l.filter g).any f = l.any f := by
  induction l with
  | nil => rfl
  | cons x xs ih =>
    have ih' := ih (fun y hy => h y (List.mem_cons_of_mem _ hy))
    by_cases hg : g x = true
    · simp [List.filter_cons, hg, ih']
    · have hfx : f x = false := by
        cases hf : f x with
        | false => rfl
        | true => exact absurd (h x (List.mem_cons_self _ _) hf) hg
      simp [List.filter_cons, hg, ih', hfx]

/-- A question word that holds `.`, `!` or `?` is in no lower-cased sentence, when lower-casing
creates none of these characters. -/
theorem includes_punctuated_eq_false (toLowerCase : JSString → JSString)
    (hlower : ∀ s, (∀ c ∈ s, isSentenceEnd c = false) →
      ∀ c ∈ toLowerCase s, isSentenceEnd c = false)
    (context sentence word : JSString) (hs : sentence ∈ sentences context)
    (hw : word.any isSentenceEnd = true) :
    includes (toLowerCase sentence) word = false := by
  obtain ⟨c, hc, hcs⟩ := List.any_eq_true.1 hw
  have hclean := hlower sentence
    (not_sep_of_mem_splitRuns isSentenceEnd context sentence (mem_sentences hs))
  simp only [includes, decide_eq_false_iff_not]
  intro hinf
  have := hclean c (hinf.subset hc)
  rw [hcs] at this
  cases this

/-- C24: when lower-casing creates no `.`, `!` or `?`, a question word that holds one of them
is contained in no sentence of the context; and a question whose words longer than 3 characters
are those of `question` without such words gets the same answer as `question`. -/
theorem answerQuestion_ignores_punctuated (toLowerCase : JSString → JSString)
    (hlower : ∀ s, (∀ c ∈ s, isSentenceEnd c = false) →
      ∀ c ∈ toLowerCase s, isSentenceEnd c = false)
    (question question' context : JSString)
    (hq : (questionWords toLowerCase question').filter (fun w => decide (jsLength w > 3))
      = (questionWords toLowerCase question).filter
          (fun w => decide (jsLength w > 3) && !w.any isSentenceEnd)) :
    (∀ sentence ∈ sentences context, ∀ word ∈ questionWords toLowerCase question,
        word.any isSentenceEnd = true → includes (toLowerCase sentence) word = false) ∧
      answerQuestion toLowerCase question' context
        = answerQuestion toLowerCase question context := by
  have hinc := includes_punctuated_eq_false toLowerCase hlower context
  refine ⟨fun s hs w _ hw => hinc s w hs hw, ?_⟩
  have hrel : ∀ s ∈ sentences context,
      isRelevant toLowerCase question' s = isRelevant toLowerCase question s := by
    intro s hs
    unfold isRelevant
    rw [← any_filter_of_imp (questionWords toLowerCase question') _
        (fun w => decide (jsLength w > 3)) (by
          intro w _ hw
          simp only [Bool.and_eq_true] at hw
          exact hw.1),
      ← any_filter_of_imp (questionWords toLowerCase question) _
        (fun w => decide (jsLength w > 3) && !w.any isSentenceEnd) (by
          intro w _ hw
          simp only [Bool.and_eq_true] at hw
          have hp : w.any isSentenceEnd = false := by
            cases hp : w.any isSentenceEnd with
            | false => rfl
            | true =>
              have := hinc s w hs hp
              rw [this] at hw
              exact absurd hw.2 (by simp)
          simp only [Bool.and_eq_true, hw.1, hp]
          simp), hq]
  have hlist : relevantSentences toLowerCase question' context
      = relevantSentences toLowerCase question context := by
    unfold relevantSentences
    exact List.filter_congr hrel
  unfold answerQuestion
  rw [hlist]

/-- Witness for `answerQuestion_ignores_punctuated`: `Where is the cat?` and the same question
without its last word get the same answer. -/
theorem answerQuestion_ignores_punctuated_witness :
    (∀ sentence ∈ sentences "The cat sat. Where cats go".toList,
        ∀ word ∈ questionWords asciiLower "Where is the cat?".toList,
        word.any isSentenceEnd = true → includes (asciiLower sentence) word = false) ∧
      answerQuestion asciiLower "Where is the".toList "The cat sat. Where cats go".toList
        = answerQuestion asciiLower "Where is the cat?".toList
            "The cat sat. Where cats go".toList :=
  answerQuestion_ignores_punctuated asciiLower asciiLower_no_sentenceEnd
    "Where is the cat?".toList "Where is the".toList "The cat sat. Where cats go".toList
    (by decide)

/-! ## documentProcessor.js: the extracted text -/

/-- A text passes the blank test exactly when it is present, and its `trim` is not empty. -/
theorem isBlank_eq_false_iff (text : JSString) :
    isBlank (some text) = false ↔ trim text ≠ [] := by
  have h : trim text ≠ [] → text ≠ [] := by
    intro ht h0
    rw [h0] at ht
    exact ht rfl
  have hlen := jsLength_pos_iff (trim text)
  simp only [isBlank, Bool.or_eq_false_iff, decide_eq_false_iff_not]
  constructor
  · rintro ⟨_, h2⟩
    exact hlen.1 (by omega)
  · intro ht
    exact ⟨h ht, by have := hlen.2 ht; omega⟩

/-- A non-empty `trim` is a text that the upload handler accepts. -/
theorem accepted_of_trim (text : JSString) (h : trim text ≠ []) :
    trim text ≠ [] ∧ beginsWith isWhiteSpace (trim text) = false ∧
      endsWith isWhiteSpace (trim text) = false ∧ couldNotExtract (trim text) = false := by
  have h1 := (trim_eq_self_iff (trim text)).1 (trim_trim text)
  refine ⟨h, h1.1, h1.2, ?_⟩
  have h2 := (isBlank_eq_false_iff (trim text)).2 (by rw [trim_trim]; exact h)
  simpa [isBlank, couldNotExtract] using h2

theorem processText_ok (env : FileReads) (text : JSString) (h : processText env = .ok text) :
    ∃ content, text = trim content ∧ trim content ≠ [] := by
  unfold processText at h
  split at h
  · cases h
  · rename_i content _
    split at h
    · cases h
    · rename_i hb
      cases h
      exact ⟨content, rfl, (isBlank_eq_false_iff content).1 (by simpa using hb)⟩

theorem processWord_ok (env : FileReads) (text : JSString) (h : processWord env = .ok text) :
    ∃ content, text = trim content ∧ trim content ≠ [] := by
  unfold processWord at h
  split at h
  · cases h
  · cases h
  · rename_i value _
    split at h
    · cases h
    · rename_i hb
      cases h
      exact ⟨value, rfl, (isBlank_eq_false_iff value).1 (by simpa using hb)⟩

theorem processPDFFirst_ok (env : FileReads) (text : JSString)
    (h : processPDFFirst env = .ok text) :
    ∃ content, text = trim content ∧ trim content ≠ [] := by
  unfold processPDFFirst at h
  split at h
  · cases h
  · cases h
  · rename_i value _
    split at h
    · cases h
    · rename_i hb
      cases h
      exact ⟨value, rfl, (isBlank_eq_false_iff value).1 (by simpa using hb)⟩

theorem processPDF_ok (env : FileReads) (text : JSString) (h : processPDF env = .ok text) :
    ∃ content, text = trim content ∧ trim content ≠ [] := by
  unfold processPDF at h
  split at h
  · rename_i t ht
    cases h
    exact processPDFFirst_ok env _ ht
  · split at h
    · rename_i value _
      split at h
      · cases h
      · rename_i hb
        cases h
        exact ⟨value, rfl, (isBlank_eq_false_iff value).1 (by simpa using hb)⟩
    · cases h

/-- C25: whenever `processDocument` returns a text, through `processPDF`, `processWord` or
`processText`, the text is not empty and neither begins nor ends with whitespace, and the test
of the upload handler that answers 400 `Could not extract text from document` is false. -/
theorem processDocument_ok (fileExtension : JSString) (env : FileReads) (text : JSString)
    (h : processDocument fileExtension env = .ok text) :
    text ≠ [] ∧ beginsWith isWhiteSpace text = false ∧ endsWith isWhiteSpace text = false ∧
      couldNotExtract text = false := by
  have key : ∃ content, text = trim content ∧ trim content ≠ [] := by
    unfold processDocument at h
    split at h
    · exact processPDF_ok env text h
    · split at h
      · exact processWord_ok env text h
      · split at h
        · exact processText_ok env text h
        · cases h
  obtain ⟨content, rfl, hne⟩ := key
  exact accepted_of_trim content hne

/-- Witness for `processDocument_ok`: a text file that holds `  Hello world ` and a newline. -/
theorem processDocument_ok_witness :
    processDocument ".txt".toList (textFile "  Hello world \n".toList)
        = .ok "Hello world".toList ∧
      "Hello world".toList ≠ [] ∧ beginsWith isWhiteSpace "Hello world".toList = false ∧
      endsWith isWhiteSpace "Hello world".toList = false ∧
      couldNotExtract "Hello world".toList = false :=
  ⟨by rfl, processDocument_ok ".txt".toList (textFile "  Hello world \n".toList)
    "Hello world".toList (by rfl)⟩

end LLMQA
